import Mathlib

/-!
Verification of the `ilass` segment algebra (`src/ilass-core/src/segments.rs`)
and the audio front end (`src/ilass-cli/src/video_decoder.rs`,
`src/ilass-cli/src/video_decoder/ffmpeg_binary.rs`).

Scalar types: `Rating`, `RatingDelta` and `TimeDelta` live in
`rating_type.rs` / `time_types.rs`, which are not part of the sources here;
they are modelled from the spec as signed integers (1 time unit = 1 ms,
arithmetic without overflow) with floored signed division.
-/

namespace Ilass

/-!
Modelled from the spec: the scalar types `Rating`, `RatingDelta`, `TimeDelta`
(and the aliases `Point`, `PointDiff`, `Offset`) of `rating_type.rs` /
`time_types.rs` are signed integer scalars whose arithmetic never overflows in
the required range; they are all embedded as `Int` (an abbreviation would
defeat linear-arithmetic automation, so `Int` is used directly throughout).
-/

/-- Modelled from the spec: `Rating::add_mul` computes `rating + delta * time`
"without intermediate overflow". -/
def Rating.add_mul (r d t : Int) : Int :=
  r + d * t

/-- Modelled from the spec: `RatingDelta::div_by_delta_to_i64` is the "signed
division `(rating2 - rating1) / (delta1 - delta2)` returning a floored 64-bit
integer quotient". -/
def RatingDelta.div_by_delta_to_i64 (r d : Int) : Int :=
  Int.fdiv r d

/-- `struct PointSpan { start, end }`; the source field `end` is a Lean
keyword, rendered `endp`. -/
structure PointSpan where
  start : Int
  endp : Int
deriving Repr, DecidableEq

/-- `PointSpan::len` -/
def PointSpan.len (s : PointSpan) : Int :=
  s.endp - s.start

/-- `struct OffsetInfo { offset, drag }` -/
structure OffsetInfo where
  offset : Int
  drag : Bool
deriving Repr, DecidableEq

/-- `OffsetInfo::constant` -/
def OffsetInfo.constant (offset : Int) : OffsetInfo :=
  { offset := offset, drag := false }

/-- `OffsetInfo::start_offset` -/
def OffsetInfo.start_offset (o : OffsetInfo) : Int :=
  o.offset

/-- `OffsetInfo::end_offset` -/
def OffsetInfo.end_offset (o : OffsetInfo) (span_length : Int) : Int :=
  if o.drag then o.offset + (span_length - 1) else o.offset

/-- `OffsetInfo::exclusive_end_offset` -/
def OffsetInfo.exclusive_end_offset (o : OffsetInfo) (span_length : Int) : Int :=
  if o.drag then o.offset + span_length else o.offset

/-- `OffsetInfo::advanced_offset` -/
def OffsetInfo.advanced_offset (o : OffsetInfo) (time_delta : Int) : Int :=
  if o.drag then o.offset + time_delta else o.offset

/-- `OffsetInfo::advanced` -/
def OffsetInfo.advanced (o : OffsetInfo) (time_delta : Int) : OffsetInfo :=
  if o.drag then { offset := o.offset + time_delta, drag := true }
  else { offset := o.offset, drag := false }

/-- `struct RatingInfo { rating, delta }` -/
structure RatingInfo where
  rating : Int
  delta : Int
deriving Repr, DecidableEq

/-- `RatingInfo::constant` -/
def RatingInfo.constant (rating : Int) : RatingInfo :=
  { rating := rating, delta := 0 }

/-- `RatingInfo::advanced` -/
def RatingInfo.advanced (ri : RatingInfo) (len : Int) : RatingInfo :=
  { rating := Rating.add_mul ri.rating ri.delta len, delta := ri.delta }

/-- `RatingInfo::get_at` -/
def RatingInfo.get_at (ri : RatingInfo) (len : Int) : Int :=
  Rating.add_mul ri.rating ri.delta len

/-- `RatingInfo::start_rating` -/
def RatingInfo.start_rating (ri : RatingInfo) : Int :=
  ri.rating

/-- `RatingInfo::end_rating` -/
def RatingInfo.end_rating (ri : RatingInfo) (len : Int) : Int :=
  Rating.add_mul ri.rating ri.delta (len - 1)

/-- `RatingInfo::exclusive_end_rating` -/
def RatingInfo.exclusive_end_rating (ri : RatingInfo) (len : Int) : Int :=
  Rating.add_mul ri.rating ri.delta len

/-- `struct DualInfo { offset_info, rating_info }` -/
structure DualInfo where
  offset_info : OffsetInfo
  rating_info : RatingInfo
deriving Repr, DecidableEq

/-- `DualInfo::advanced` -/
def DualInfo.advanced (d : DualInfo) (len : Int) : DualInfo :=
  { rating_info := d.rating_info.advanced len, offset_info := d.offset_info.advanced len }

/-- `impl Add<RatingInfo> for RatingInfo` -/
def RatingInfo.add (a b : RatingInfo) : RatingInfo :=
  { rating := a.rating + b.rating, delta := a.delta + b.delta }

/-- `struct Segment<D> { end_point, data }` -/
structure Segment (D : Type) where
  end_point : Int
  data : D
deriving Repr, DecidableEq

/-- `struct FullSegment<D> { span, data }` -/
structure FullSegment (D : Type) where
  span : PointSpan
  data : D
deriving Repr, DecidableEq

/-- `Segment::with_start_point` (the source asserts `start_point < end_point`;
the assert is tracked by the well-formedness predicates below). -/
def Segment.with_start_point {D : Type} (s : Segment D) (start_point : Int) : FullSegment D :=
  { span := { start := start_point, endp := s.end_point }, data := s.data }

/-- `FullSegment::discard_start_time` -/
def FullSegment.discard_start_time {D : Type} (s : FullSegment D) : Segment D :=
  { end_point := s.span.endp, data := s.data }

abbrev RatingSegment := Segment RatingInfo
abbrev OffsetSegment := Segment OffsetInfo
abbrev DualSegment := Segment DualInfo
abbrev RatingFullSegment := FullSegment RatingInfo
abbrev OffsetFullSegment := FullSegment OffsetInfo
abbrev DualFullSegment := FullSegment DualInfo

/-- `RatingSegment::start_rating` -/
def RatingSegment.start_rating (s : RatingSegment) : Int :=
  s.data.start_rating

/-- `RatingSegment::end_rating` -/
def RatingSegment.end_rating (s : RatingSegment) (len : Int) : Int :=
  s.data.end_rating len

/-- `DualSegment::advance` -/
def DualSegment.advance (s : DualSegment) (delta : Int) : DualSegment :=
  { end_point := s.end_point,
    data := { rating_info := s.data.rating_info.advanced delta,
              offset_info := s.data.offset_info.advanced delta } }

/-- `RatingSegment::advance` (via `RatingInfo::advance`) -/
def RatingSegment.advance (s : RatingSegment) (delta : Int) : RatingSegment :=
  { end_point := s.end_point, data := s.data.advanced delta }

/-- `DualSegment::as_rating_segment` -/
def DualSegment.as_rating_segment (s : DualSegment) : RatingSegment :=
  { end_point := s.end_point, data := s.data.rating_info }

/-- `DualSegment::as_offset_segment` -/
def DualSegment.as_offset_segment (s : DualSegment) : OffsetSegment :=
  { end_point := s.end_point, data := s.data.offset_info }

/-- `DualFullSegment::start_rating` -/
def DualFullSegment.start_rating (s : DualFullSegment) : Int :=
  s.data.rating_info.rating

/-- `DualFullSegment::start_offset` -/
def DualFullSegment.start_offset (s : DualFullSegment) : Int :=
  s.data.offset_info.offset

/-- `DualFullSegment::end_rating` -/
def DualFullSegment.end_rating (s : DualFullSegment) : Int :=
  Rating.add_mul s.data.rating_info.rating s.data.rating_info.delta (s.span.len - 1)

/-- `DualFullSegment::exclusive_end_offset` -/
def DualFullSegment.exclusive_end_offset (s : DualFullSegment) : Int :=
  s.data.offset_info.exclusive_end_offset s.span.len

/-- `DualFullSegment::exclusive_end_rating` -/
def DualFullSegment.exclusive_end_rating (s : DualFullSegment) : Int :=
  s.data.rating_info.exclusive_end_rating s.span.len

/-- `RatingFullSegment::exclusive_end_rating` -/
def RatingFullSegment.exclusive_end_rating (s : RatingFullSegment) : Int :=
  Rating.add_mul s.data.rating s.data.delta s.span.len

/-! ## Signal semantics

A signal is a `start` point plus a list of segments whose end points strictly
increase; segment `i` starts where segment `i-1` ended.  The value at
`t ∈ [start, end)` is given by the segment containing `t`
(`rating_at(t) = rating + delta * (t - segment_start)`, and analogously for
offsets, following the data-model section of the spec and
`OffsetBuffer::get_offset_at`). -/

/-- End points of a segment list. -/
def endPoints {D : Type} (segs : List (Segment D)) : List Int :=
  segs.map (fun s => s.end_point)

/-- The signal ordering invariant: starting from `start`, every segment's end
point strictly exceeds the previous one ("segment ends are strictly
monotonically increasing"). -/
def WFSegs {D : Type} (start : Int) (segs : List (Segment D)) : Prop :=
  List.Chain (fun a b => a < b) start (endPoints segs)

/-- Value of a rating signal (`start`, segment list) at a time point:
`none` outside the span. -/
def ratingValueAt (start : Int) (segs : List RatingSegment) (t : Int) : Option Int :=
  match segs with
  | [] => none
  | s :: rest =>
    if start ≤ t ∧ t < s.end_point then some (s.data.get_at (t - start))
    else ratingValueAt s.end_point rest t

/-- Value of the rating component of a dual signal at a time point. -/
def dualRatingValueAt (start : Int) (segs : List DualSegment) (t : Int) : Option Int :=
  ratingValueAt start (segs.map DualSegment.as_rating_segment) t

/-- Offset component of a dual signal at a time point
(cf. `OffsetBuffer::get_offset_at`). -/
def offsetValueAt (start : Int) (segs : List OffsetSegment) (t : Int) : Option Int :=
  match segs with
  | [] => none
  | s :: rest =>
    if start ≤ t ∧ t < s.end_point then some (s.data.advanced_offset (t - start))
    else offsetValueAt s.end_point rest t

/-- Offset component of a dual signal at a time point. -/
def dualOffsetValueAt (start : Int) (segs : List DualSegment) (t : Int) : Option Int :=
  offsetValueAt start (segs.map DualSegment.as_offset_segment) t

/-- Rating value of a full-segment list at a time point. -/
def fullRatingValueAt (segs : List RatingFullSegment) (t : Int) : Option Int :=
  match segs with
  | [] => none
  | s :: rest =>
    if s.span.start ≤ t ∧ t < s.span.endp then some (s.data.get_at (t - s.span.start))
    else fullRatingValueAt rest t

/-- Rating value of a dual full-segment list at a time point. -/
def dualFullRatingValueAt (segs : List DualFullSegment) (t : Int) : Option Int :=
  match segs with
  | [] => none
  | s :: rest =>
    if s.span.start ≤ t ∧ t < s.span.endp then
      some (s.data.rating_info.get_at (t - s.span.start))
    else dualFullRatingValueAt rest t

/-- Offset value of a dual full-segment list at a time point. -/
def dualFullOffsetValueAt (segs : List DualFullSegment) (t : Int) : Option Int :=
  match segs with
  | [] => none
  | s :: rest =>
    if s.span.start ≤ t ∧ t < s.span.endp then
      some (s.data.offset_info.advanced_offset (t - s.span.start))
    else dualFullOffsetValueAt rest t

/-! ## `RatingBuffer` and `RatingBuffer::maximum` -/

/-- `struct RatingBuffer { start, buffer }` -/
structure RatingBuffer where
  start : Int
  buffer : List RatingSegment
deriving Repr, DecidableEq

/-- The fold step of `RatingBuffer::maximum` (state
`(current_max, current_max_point, segment_start)`). -/
def maximumStep (state : Int × Int × Int) (segment : RatingSegment) :
    Int × Int × Int :=
  let current_max := state.1
  let current_max_point := state.2.1
  let segment_start := state.2.2
  let start_rating := segment.start_rating
  let end_rating := segment.end_rating (segment.end_point - segment_start)
  if start_rating > current_max then (start_rating, segment_start, segment.end_point)
  else if end_rating > current_max then (start_rating, segment.end_point - 1, segment.end_point)
  else (current_max, current_max_point, segment.end_point)

/-- `RatingBuffer::maximum` -/
def RatingBuffer.maximum (b : RatingBuffer) : Int × Int :=
  let r := b.buffer.foldl maximumStep (0, b.start, b.start)
  (r.1, r.2.1)

/-! ## Lazy transforms of `SegmentIterator` / `RatingIterator`

Each lazy pipeline stage is embedded as a function on the backing segment
list (the `start` field is handled at the use site; only `shift` changes it). -/

/-- Pairwise part of the ordering invariant: the segment end points are
strictly monotonically increasing. -/
def StrictlyIncreasingEnds {D : Type} (segs : List (Segment D)) : Prop :=
  List.Chain' (fun a b => a < b) (endPoints segs)

/-- `SegmentIterator::shift` / `SegmentIterator::shift_simple` on the segment
list: every end point is shifted by `t` (`shift` additionally moves `start`
to `start + t`, `shift_simple` leaves `start` unchanged). -/
def shiftSegs {D : Type} (t : Int) (segs : List (Segment D)) : List (Segment D) :=
  segs.map (fun s => { end_point := s.end_point + t, data := s.data })

/-- `SegmentIterator::append`: chains one extra segment after the input. -/
def appendSeg {D : Type} (segs : List (Segment D)) (end_point : Int) (data : D) :
    List (Segment D) :=
  segs ++ [{ end_point := end_point, data := data }]

/-- `RatingIterator::add_rating`: adds `rating_delta` to every starting
rating, leaving end points and slopes unchanged. -/
def addRatingSegs (rating_delta : Int) (segs : List RatingSegment) :
    List RatingSegment :=
  segs.map (fun s =>
    { end_point := s.end_point,
      data := { rating := s.data.rating + rating_delta, delta := s.data.delta } })

/-- `RatingIterator::clamp_end`: truncates every end point at
`min(end_point, clamp)`. -/
def clampEndSegs (clamp : Int) (segs : List RatingSegment) : List RatingSegment :=
  segs.map (fun s => { end_point := min s.end_point clamp, data := s.data })

/-- `ExtendToIterator::next`, run to exhaustion: forwards input segments
(asserting `end_point ≤ self.end_point`, modelled as `none` on failure;
`data_to_extend` is dropped when a segment ends exactly at `end_point`) and,
once the input ends, appends the remembered tail segment if still present. -/
def extendToSegs {D : Type} (segs : List (Segment D)) (endp : Int) (dataOpt : Option D) :
    Option (List (Segment D)) :=
  match segs with
  | [] =>
    match dataOpt with
    | some d => some [{ end_point := endp, data := d }]
    | none => some []
  | s :: rest =>
    if s.end_point ≤ endp then
      (extendToSegs rest endp (if s.end_point = endp then none else dataOpt)).map
        (fun out => s :: out)
    else none

/-- `RatingIterator::extend_to`: the tail data is a zero-rating, zero-slope
`RatingInfo`. -/
def extend_to (segs : List RatingSegment) (end_point : Int) : Option (List RatingSegment) :=
  extendToSegs segs end_point (some { rating := 0, delta := 0 })


/-- Structural decision procedure for the strictly-increasing chain (used to
evaluate the ordering invariant on concrete buffers). -/
def decChainLt : (l : List Int) → Decidable (List.Chain' (fun a b => a < b) l)
  | [] => isTrue (by simp)
  | [_] => isTrue (by simp)
  | a :: b :: rest =>
    match decChainLt (b :: rest), Int.decLt a b with
    | isTrue h, isTrue hab => isTrue (List.chain'_cons.mpr ⟨hab, h⟩)
    | isFalse h, _ => isFalse (fun hc => h (List.chain'_cons.mp hc).2)
    | _, isFalse hab => isFalse (fun hc => hab (List.chain'_cons.mp hc).1)

instance decStrictlyIncreasingEnds {D : Type} (segs : List (Segment D)) :
    Decidable (StrictlyIncreasingEnds segs) :=
  decChainLt (endPoints segs)

instance decWFSegs {D : Type} (start : Int) (segs : List (Segment D)) :
    Decidable (WFSegs start segs) :=
  decChainLt (start :: endPoints segs)


/-! ## `ChunkedAudioReceiver` (`src/ilass-cli/src/video_decoder.rs`)

The inner receiver is modelled by the list of sample chunks pushed into it so
far (`forwarded`); the partial window is the filled prefix `buffer[..filled]`
of the source's preallocated buffer (`buffered`). -/

/-- State of a `ChunkedAudioReceiver`: window size, buffered partial window,
and the chunks forwarded to the inner receiver so far. -/
structure ChunkedAudioReceiver where
  size : Nat
  buffered : List Int
  forwarded : List (List Int)
deriving Repr, DecidableEq

/-- The copy loop of `ChunkedAudioReceiver::push_samples`: while samples
remain, copy `min(buffer.len() - filled, samples.len())` samples into the
buffer and forward the buffer to the inner receiver whenever it fills up.
Returns the final partial window and the chunks forwarded by this call
(`none` models a panic of the entry assertion `buffer.len() > filled`,
re-checked here because it is the loop invariant). -/
def chunkLoop (size : Nat) : (buffered : List Int) → (samples : List Int) →
    Option (List Int × List (List Int))
  | buffered, [] => some (buffered, [])
  | buffered, s :: ss =>
    if _h : buffered.length < size then
      let sample_count := min (size - buffered.length) (s :: ss).length
      let newBuf := buffered ++ (s :: ss).take sample_count
      let rest := (s :: ss).drop sample_count
      if newBuf.length = size then
        (chunkLoop size [] rest).map (fun bc => (bc.1, newBuf :: bc.2))
      else
        chunkLoop size newBuf rest
    else none
termination_by _ samples => samples.length
decreasing_by
  all_goals
    simp only [List.length_drop]
    have h1 : 1 ≤ size - buffered.length := by omega
    have h2 : 0 < (s :: ss).length := by simp
    omega

/-- `ChunkedAudioReceiver::push_samples` (the entry assertion
`buffer.len() > filled` is modelled as `none` on failure). -/
def ChunkedAudioReceiver.push_samples (r : ChunkedAudioReceiver) (samples : List Int) :
    Option ChunkedAudioReceiver :=
  if r.buffered.length < r.size then
    match chunkLoop r.size r.buffered samples with
    | some (b, cs) => some { size := r.size, buffered := b, forwarded := r.forwarded ++ cs }
    | none => none
  else none

/-- `ChunkedAudioReceiver::finish` calls only the inner receiver's `finish`;
the inner receiver ends up having been pushed exactly `forwarded`. -/
def ChunkedAudioReceiver.finish (r : ChunkedAudioReceiver) : List (List Int) :=
  r.forwarded

/-- Modelled from the spec: "a windowing adapter buffers partial windows and
flushes on finalize" — the finalize behaviour the spec claims, stated for
comparison with `ChunkedAudioReceiver.finish`. -/
def ChunkedAudioReceiver.finishFlushSpec (r : ChunkedAudioReceiver) : List (List Int) :=
  if r.buffered.isEmpty then r.forwarded else r.forwarded ++ [r.buffered]

/-! ## Audio stream selection and subprocess errors
(`src/ilass-cli/src/video_decoder/ffmpeg_binary.rs`) -/

/-- `enum CodecType` -/
inductive CodecType : Type
  | Audio : CodecType
  | Video : CodecType
  | Subtitle : CodecType
  | Other : String → CodecType
deriving Repr, DecidableEq

/-- `struct Stream` (ffprobe metadata entry). -/
structure Stream where
  index : Nat
  channels : Option Nat
  duration : Option String
  codec_type : CodecType
deriving Repr, DecidableEq

/-- The filter of `VideoDecoderFFmpegBinary::decode`:
`s.codec_type == CodecType::Audio && s.channels.is_some()`. -/
def isSelectableAudio (s : Stream) : Bool :=
  s.codec_type == CodecType.Audio && s.channels.isSome

/-- Rust `Iterator::min_by_key`: returns the first element attaining the
minimal key (later elements replace the current best only when strictly
smaller). -/
def min_by_key {α : Type} (f : α → Nat) : List α → Option α
  | [] => none
  | x :: xs => some (xs.foldl (fun best y => if f y < f best then y else best) x)

/-- Stream choice of `VideoDecoderFFmpegBinary::decode`: with no
`audio_index`, the audio stream with the fewest channels
(`min_by_key(|s| s.channels.unwrap())`, rendered with `getD 0`, which agrees
with `unwrap` on the filtered streams); with an `audio_index`, the first
filtered stream with that index. -/
def selectAudioStream (streams : List Stream) (audio_index : Option Nat) : Option Stream :=
  let audio_streams := streams.filter isSelectableAudio
  match audio_index with
  | none => min_by_key (fun s => s.channels.getD 0) audio_streams
  | some ai => audio_streams.find? (fun s => s.index == ai)

/-- `enum DecoderError` of `ffmpeg_binary.rs` (the variants reached by the
exit-status handling and by `decode`'s wrapper around it;
`ProcessErrorCode` carries `Option<i32>`, `None` for a signal-interrupted
child; `FailedExtractingAudio` carries the file path and the ffmpeg command
of `CmdWithArgs`). -/
inductive DecoderError : Type
  | ProcessErrorCode : (cmd_path : String) → (code : Option Int) → DecoderError
  | ProcessErrorMessage : (msg : String) → DecoderError
  | ReadError : DecoderError
  | WaitingForProcessFailed : (cmd_path : String) → DecoderError
  | AudioSegmentProcessingFailed : DecoderError
  | FailedExtractingAudio : (file_path : String) → (cmd_path : String) →
      (args : List String) → DecoderError
deriving Repr, DecidableEq

/-- The exit-status handling of
`VideoDecoderFFmpegBinary::extract_audio_stream` (reached once stdout is
exhausted): exit code `Some(0)` returns whatever finishing the receiver
yields; any other exit code fails with `ProcessErrorCode` when the captured
stderr is empty and `ProcessErrorMessage` with the stderr text otherwise. -/
def extract_audio_stream_exit {T : Type} (cmd_path : String) (code : Option Int)
    (stderr_str : String) (finish_result : Except DecoderError T) : Except DecoderError T :=
  match code with
  | some 0 => finish_result
  | code =>
    if stderr_str.isEmpty then
      Except.error (DecoderError.ProcessErrorCode cmd_path code)
    else
      Except.error (DecoderError.ProcessErrorMessage stderr_str)

/-- The `map_err` wrapper `VideoDecoderFFmpegBinary::decode` puts around
`Self::extract_audio_stream(receiver, progress_handler, ffmpeg_path, &args)`:
ANY error of the extraction is replaced by
`DecoderError::FailedExtractingAudio { file_path, cmd }`. -/
def decode_extract_result {T : Type} (file_path cmd_path : String) (args : List String)
    (extract_result : Except DecoderError T) : Except DecoderError T :=
  match extract_result with
  | Except.ok t => Except.ok t
  | Except.error _ =>
    Except.error (DecoderError.FailedExtractingAudio file_path cmd_path args)

/-- What `decode` yields when the spawned ffmpeg exits and the exit-status
handling of `extract_audio_stream` runs: the inner selection composed with
`decode`'s `map_err` wrapper. -/
def decode_exit {T : Type} (file_path cmd_path : String) (args : List String)
    (code : Option Int) (stderr_str : String) (finish_result : Except DecoderError T) :
    Except DecoderError T :=
  decode_extract_result file_path cmd_path args
    (extract_audio_stream_exit cmd_path code stderr_str finish_result)


/-! ## Full-segment signal well-formedness -/

/-- A full-segment list tiles the timeline starting at `p`: each segment
starts where the previous ended (first at `p`) and is non-empty.  This is the
shape produced by `annotate_with_segment_start_points` on a well-formed
segment stream. -/
def WFFullFrom {D : Type} (p : Int) : List (FullSegment D) → Prop
  | [] => True
  | s :: rest => s.span.start = p ∧ p < s.span.endp ∧ WFFullFrom s.span.endp rest

/-- Structural decision procedure for `WFFullFrom`. -/
def decWFFullFrom {D : Type} (p : Int) : (l : List (FullSegment D)) → Decidable (WFFullFrom p l)
  | [] => isTrue trivial
  | s :: rest =>
    match Int.decEq s.span.start p, Int.decLt p s.span.endp, decWFFullFrom s.span.endp rest with
    | isTrue h1, isTrue h2, isTrue h3 => isTrue ⟨h1, h2, h3⟩
    | isFalse h1, _, _ => isFalse (fun hc => h1 hc.1)
    | _, isFalse h2, _ => isFalse (fun hc => h2 hc.2.1)
    | _, _, isFalse h3 => isFalse (fun hc => h3 hc.2.2)

instance instDecWFFullFrom {D : Type} (p : Int) (l : List (FullSegment D)) :
    Decidable (WFFullFrom p l) :=
  decWFFullFrom p l

/-! ## Exact simplification (`SimplifyRatingPushIterator`, `DualSimplifyIterator`) -/

/-- The loop of `SimplifyRatingPushIterator::push` followed by `finish`, with
`acc` the held `current_segment`: a next segment is merged into `acc` exactly
when the deltas are identical and `acc`'s exclusive end rating equals the
next segment's start rating; otherwise `acc` is emitted and the next segment
(annotated with `acc`'s end as its start) becomes current. -/
def simplifyRatingsGo (acc : RatingFullSegment) : List RatingSegment → List RatingFullSegment
  | [] => [acc]
  | next :: rest =>
    if acc.data.delta = next.data.delta ∧ acc.exclusive_end_rating = next.data.start_rating then
      simplifyRatingsGo { span := { start := acc.span.start, endp := next.end_point },
                          data := acc.data } rest
    else
      acc :: simplifyRatingsGo (next.with_start_point acc.span.endp) rest

/-- `simplifiy_ratings_push_iter` applied to a whole stream (the first
segment becomes the initial `current_segment`, annotated with `start`). -/
def simplifyRatings (start : Int) : List RatingSegment → List RatingFullSegment
  | [] => []
  | s :: rest => simplifyRatingsGo (s.with_start_point start) rest

/-- `RatingIterator::save_simplified`: exact simplification, with start
points discarded again for the backing buffer. -/
def save_simplified (start : Int) (segs : List RatingSegment) : RatingBuffer :=
  { start := start, buffer := (simplifyRatings start segs).map FullSegment.discard_start_time }

/-- The loop of `DualSimplifyIterator::next`, with `acc` the held
`current_segment`: merged exactly when rating deltas and drags agree and
`acc`'s exclusive end offset and exclusive end rating equal the next
segment's start offset and start rating. -/
def dualSimplifyGo (acc : DualFullSegment) : List DualSegment → List DualFullSegment
  | [] => [acc]
  | next :: rest =>
    if next.data.rating_info.delta = acc.data.rating_info.delta ∧
       next.data.offset_info.drag = acc.data.offset_info.drag ∧
       acc.exclusive_end_offset = next.data.offset_info.offset ∧
       acc.exclusive_end_rating = next.data.rating_info.rating then
      dualSimplifyGo { span := { start := acc.span.start, endp := next.end_point },
                       data := acc.data } rest
    else
      acc :: dualSimplifyGo (next.with_start_point acc.span.endp) rest

/-- `DualIterator::simplify` applied to a whole stream. -/
def dualSimplify (start : Int) : List DualSegment → List DualFullSegment
  | [] => []
  | s :: rest => dualSimplifyGo (s.with_start_point start) rest

/-! ## Pointwise sum (`DualIterator::add_ratings_from` / `RatingAdderIterator2`) -/

/-- `RatingAdderIterator2::generate_segment`: a dual full segment on
`[segment_start, segment_end)` whose rating info is the sum of the two
current start ratings and deltas, carrying the first (dual) side's offset
info. -/
def RatingAdderIterator2.generate_segment (segment_start : Int) (dual_seg1 : DualSegment)
    (dual_seg2 : RatingSegment) (segment_end : Int) : DualFullSegment :=
  { span := { start := segment_start, endp := segment_end },
    data := { rating_info := { rating := dual_seg1.data.rating_info.rating + dual_seg2.data.rating,
                               delta := dual_seg1.data.rating_info.delta + dual_seg2.data.delta },
              offset_info := dual_seg1.data.offset_info } }

/-- `RatingAdderIterator2::next`, run to exhaustion.  The walk advances by
whichever current segment ends first, advancing the other side by the
consumed length; when both end together it pulls from both (ending
simultaneously finishes; ending unequally panics, modelled as `none`). -/
def ratingAdder2 (segment_start : Int) (dual_seg1 : DualSegment) (dual_seg2 : RatingSegment) :
    (input_iter1 : List DualSegment) → (input_iter2 : List RatingSegment) →
    Option (List DualFullSegment)
  | input_iter1, input_iter2 =>
    if dual_seg1.end_point < dual_seg2.end_point then
      match input_iter1 with
      | [] => none
      | s1 :: rest1 =>
        (ratingAdder2 dual_seg1.end_point s1
            (dual_seg2.advance (dual_seg1.end_point - segment_start)) rest1 input_iter2).map
          (fun out =>
            RatingAdderIterator2.generate_segment segment_start dual_seg1 dual_seg2
              dual_seg1.end_point :: out)
    else if dual_seg2.end_point < dual_seg1.end_point then
      match input_iter2 with
      | [] => none
      | s2 :: rest2 =>
        (ratingAdder2 dual_seg2.end_point
            (dual_seg1.advance (dual_seg2.end_point - segment_start)) s2 input_iter1 rest2).map
          (fun out =>
            RatingAdderIterator2.generate_segment segment_start dual_seg1 dual_seg2
              dual_seg2.end_point :: out)
    else
      match input_iter1, input_iter2 with
      | s1 :: rest1, s2 :: rest2 =>
        (ratingAdder2 dual_seg1.end_point s1 s2 rest1 rest2).map
          (fun out =>
            RatingAdderIterator2.generate_segment segment_start dual_seg1 dual_seg2
              dual_seg1.end_point :: out)
      | _ :: _, [] => none
      | [], _ :: _ => none
      | [], [] =>
        some [RatingAdderIterator2.generate_segment segment_start dual_seg1 dual_seg2
          dual_seg1.end_point]
termination_by i1 i2 => i1.length + i2.length
decreasing_by
  all_goals simp only [List.length_cons]
  all_goals omega

/-- `DualIterator::add_ratings_from`: asserts equal starts at the call site
and pulls the first element of each side (`expect`, modelled as `none` when a
side is empty). -/
def add_ratings_from (start : Int) (segs1 : List DualSegment) (segs2 : List RatingSegment) :
    Option (List DualFullSegment) :=
  match segs1, segs2 with
  | s1 :: rest1, s2 :: rest2 => ratingAdder2 start s1 s2 rest1 rest2
  | _, _ => none


/-! ## Pointwise maximum (`combined_maximum_of_dual_iterators`) -/

/-- `CombinedMaximumDualIterator::get_switch_point`: the first offset at
which the second-better segment is better,
`floor((start_rating2 - start_rating1) / (delta1 - delta2)) + 1`. -/
def get_switch_point (start_rating1 start_rating2 delta1 delta2 : Int) : Int :=
  RatingDelta.div_by_delta_to_i64 (start_rating2 - start_rating1) (delta1 - delta2) + 1

/-- `CombinedMaximumDualIterator::generate_maximum_segments`: emits the
dominating segment's data whole when one side dominates at both ends,
otherwise splits at the switch point, returning the emitted segment and the
stored swap segment; `none` models a failure of the asserts
`0 < spoint < len`. -/
def generate_maximum_segments (segment_start : Int) (dual_seg1 dual_seg2 : DualSegment)
    (len segment_end : Int) : Option (DualFullSegment × Option DualFullSegment) :=
  let start_rating1 := dual_seg1.data.rating_info.rating
  let start_rating2 := dual_seg2.data.rating_info.rating
  let end_rating1 := dual_seg1.data.rating_info.end_rating len
  let end_rating2 := dual_seg2.data.rating_info.end_rating len
  let delta1 := dual_seg1.data.rating_info.delta
  let delta2 := dual_seg2.data.rating_info.delta
  if start_rating1 ≥ start_rating2 ∧ end_rating1 ≥ end_rating2 then
    some ({ span := { start := segment_start, endp := segment_end },
            data := dual_seg1.data }, none)
  else if start_rating1 ≤ start_rating2 ∧ end_rating1 ≤ end_rating2 then
    some ({ span := { start := segment_start, endp := segment_end },
            data := dual_seg2.data }, none)
  else
    let spoint := get_switch_point start_rating1 start_rating2 delta1 delta2
    if 0 < spoint ∧ spoint < len then
      if start_rating1 > start_rating2 ∧ end_rating1 < end_rating2 then
        some ({ span := { start := segment_start, endp := segment_start + spoint },
                data := dual_seg1.data },
              some { span := { start := segment_start + spoint, endp := segment_end },
                     data := dual_seg2.data.advanced spoint })
      else
        some ({ span := { start := segment_start, endp := segment_start + spoint },
                data := dual_seg2.data },
              some { span := { start := segment_start + spoint, endp := segment_end },
                     data := dual_seg1.data.advanced spoint })
    else none

/-- `CombinedMaximumDualIterator::next`, run to exhaustion (a stored swap
segment is emitted right after its head).  The entry assertions
`segment_start < end_point` and the `expect`s on the pulled iterators are
modelled as `none`. -/
def combinedMaximumGo (segment_start : Int) (dual_seg1 dual_seg2 : DualSegment) :
    (input_iter1 : List DualSegment) → (input_iter2 : List DualSegment) →
    Option (List DualFullSegment)
  | input_iter1, input_iter2 =>
    if segment_start < dual_seg1.end_point ∧ segment_start < dual_seg2.end_point then
      if dual_seg1.end_point < dual_seg2.end_point then
        match input_iter1 with
        | [] => none
        | s1 :: rest1 =>
          (generate_maximum_segments segment_start dual_seg1 dual_seg2
              (dual_seg1.end_point - segment_start) dual_seg1.end_point).bind
            (fun hs =>
              (combinedMaximumGo dual_seg1.end_point s1
                  (dual_seg2.advance (dual_seg1.end_point - segment_start)) rest1 input_iter2).map
                (fun out => hs.1 :: (hs.2.toList ++ out)))
      else if dual_seg2.end_point < dual_seg1.end_point then
        match input_iter2 with
        | [] => none
        | s2 :: rest2 =>
          (generate_maximum_segments segment_start dual_seg1 dual_seg2
              (dual_seg2.end_point - segment_start) dual_seg2.end_point).bind
            (fun hs =>
              (combinedMaximumGo dual_seg2.end_point
                  (dual_seg1.advance (dual_seg2.end_point - segment_start)) s2 input_iter1
                  rest2).map
                (fun out => hs.1 :: (hs.2.toList ++ out)))
      else
        match input_iter1, input_iter2 with
        | s1 :: rest1, s2 :: rest2 =>
          (generate_maximum_segments segment_start dual_seg1 dual_seg2
              (dual_seg1.end_point - segment_start) dual_seg1.end_point).bind
            (fun hs =>
              (combinedMaximumGo dual_seg1.end_point s1 s2 rest1 rest2).map
                (fun out => hs.1 :: (hs.2.toList ++ out)))
        | _ :: _, [] => none
        | [], _ :: _ => none
        | [], [] =>
          (generate_maximum_segments segment_start dual_seg1 dual_seg2
              (dual_seg1.end_point - segment_start) dual_seg1.end_point).map
            (fun hs => hs.1 :: hs.2.toList)
    else none
termination_by i1 i2 => i1.length + i2.length
decreasing_by
  all_goals simp only [List.length_cons]
  all_goals omega

/-- `combined_maximum_of_dual_iterators`: asserts equal starts at the call
site and pulls the first element of each side. -/
def combined_maximum_of_dual_iterators (start : Int) (segs1 segs2 : List DualSegment) :
    Option (List DualFullSegment) :=
  match segs1, segs2 with
  | s1 :: rest1, s2 :: rest2 => combinedMaximumGo start s1 s2 rest1 rest2
  | _, _ => none

/-! ## Running maximum (`left_to_right_maximum`) -/

/-- `LeftToRightMaximumIterator::constant_segment` (a constant dual segment
carrying `current_best_rating` / `current_best_timepoint`). -/
def l2rConstantSegment (current_best_rating current_best_timepoint : Int) (span : PointSpan) :
    DualFullSegment :=
  { span := span,
    data := { rating_info := RatingInfo.constant current_best_rating,
              offset_info := OffsetInfo.constant current_best_timepoint } }

/-- `LeftToRightMaximumIterator::next`, run to exhaustion (a stored tail
segment is emitted right after its head; the asserts `0 < switch < len` are
modelled as `none`). -/
def leftToRightMaximumGo (current_best_rating current_best_timepoint : Int) :
    List DualFullSegment → Option (List DualFullSegment)
  | [] => some []
  | segment :: rest =>
    let segment_start_rating := segment.start_rating
    let segment_end_rating := segment.end_rating
    let start_offset := segment.data.offset_info.offset
    let end_offset := segment.data.offset_info.end_offset segment.span.len
    if segment_start_rating ≤ current_best_rating ∧
        segment_end_rating ≤ current_best_rating then
      (leftToRightMaximumGo current_best_rating current_best_timepoint rest).map
        (fun out =>
          l2rConstantSegment current_best_rating current_best_timepoint segment.span :: out)
    else if segment_start_rating ≥ current_best_rating then
      if segment_start_rating ≥ segment_end_rating then
        (leftToRightMaximumGo segment_start_rating start_offset rest).map
          (fun out => l2rConstantSegment segment_start_rating start_offset segment.span :: out)
      else
        (leftToRightMaximumGo segment_end_rating end_offset rest).map
          (fun out => segment :: out)
    else
      let switch := RatingDelta.div_by_delta_to_i64
        (current_best_rating - segment_start_rating) segment.data.rating_info.delta + 1
      if 0 < switch ∧ switch < segment.span.len then
        (leftToRightMaximumGo segment_end_rating end_offset rest).map
          (fun out =>
            l2rConstantSegment current_best_rating current_best_timepoint
              { start := segment.span.start, endp := segment.span.start + switch } ::
            { span := { start := segment.span.start + switch, endp := segment.span.endp },
              data := segment.data.advanced switch } :: out)
      else none

/-- `DualFullSegmentIterator::left_to_right_maximum`: seeds the running best
with rating 0 at timepoint `start`. -/
def left_to_right_maximum (start : Int) (segs : List DualFullSegment) :
    Option (List DualFullSegment) :=
  leftToRightMaximumGo 0 start segs


/-! ## Helper lemmas -/

theorem endPoints_shift {D : Type} (t : Int) (segs : List (Segment D)) :
    endPoints (shiftSegs t segs) = (endPoints segs).map (fun e => e + t) := by
  simp [endPoints, shiftSegs]

theorem shift_preserves (t : Int) {D : Type} (segs : List (Segment D))
    (h : StrictlyIncreasingEnds segs) : StrictlyIncreasingEnds (shiftSegs t segs) := by
  unfold StrictlyIncreasingEnds at *
  rw [endPoints_shift]
  refine List.chain'_map_of_chain' _ ?_ h
  intro a b hab
  exact add_lt_add_right hab t

theorem addRating_preserves (rd : Int) (segs : List RatingSegment)
    (h : StrictlyIncreasingEnds segs) : StrictlyIncreasingEnds (addRatingSegs rd segs) := by
  unfold StrictlyIncreasingEnds at *
  have heq : endPoints (addRatingSegs rd segs) = endPoints segs := by
    simp [endPoints, addRatingSegs]
  rw [heq]; exact h

theorem append_preserves {D : Type} (segs : List (Segment D)) (ep : Int) (d : D)
    (h : StrictlyIncreasingEnds segs) (hlt : ∀ e ∈ endPoints segs, e < ep) :
    StrictlyIncreasingEnds (appendSeg segs ep d) := by
  unfold StrictlyIncreasingEnds at *
  have heq : endPoints (appendSeg segs ep d) = endPoints segs ++ [ep] := by
    simp [endPoints, appendSeg]
  rw [heq]
  rw [List.chain'_append]
  refine ⟨h, List.chain'_singleton _, ?_⟩
  intro x hx y hy
  simp at hy
  subst hy
  exact hlt x (List.mem_of_mem_getLast? hx)

theorem clampEnd_preserves (clamp : Int) (segs : List RatingSegment)
    (h : StrictlyIncreasingEnds segs)
    (hcl : ∀ e ∈ (endPoints segs).dropLast, e < clamp) :
    StrictlyIncreasingEnds (clampEndSegs clamp segs) := by
  unfold StrictlyIncreasingEnds at *
  have hmap : endPoints (clampEndSegs clamp segs) =
      (endPoints segs).map (fun e => min e clamp) := by
    simp [endPoints, clampEndSegs]
  rw [hmap]
  generalize endPoints segs = l at h hcl
  clear hmap
  induction l with
  | nil => simp
  | cons a l ih =>
    cases l with
    | nil => simp
    | cons b l' =>
      rw [List.chain'_cons] at h
      simp only [List.map_cons]
      rw [List.chain'_cons]
      have ha : a < clamp := by
        apply hcl
        simp
      constructor
      · have hmin : min a clamp = a := min_eq_left (le_of_lt ha)
        rw [hmin]
        exact lt_min h.1 ha
      · have := ih h.2 (fun e he => hcl e (by simp at he ⊢; tauto))
        simpa using this

theorem extendToSegs_eq {D : Type} (endp : Int) (d : D) :
    ∀ (segs : List (Segment D)),
    StrictlyIncreasingEnds segs → (∀ e ∈ endPoints segs, e ≤ endp) →
    extendToSegs segs endp (some d) =
      some (segs ++
        (if (endPoints segs).getLast? = some endp then []
         else [{ end_point := endp, data := d }])) := by
  intro segs
  induction segs with
  | nil =>
    intro _ _
    simp [extendToSegs, endPoints]
  | cons s rest ih =>
    intro hinc hle
    have hs : s.end_point ≤ endp := hle s.end_point (by simp [endPoints])
    by_cases heq : s.end_point = endp
    · have hrest : rest = [] := by
        cases rest with
        | nil => rfl
        | cons r rest' =>
          exfalso
          have h1 : s.end_point < r.end_point := by
            have h' := hinc
            unfold StrictlyIncreasingEnds endPoints at h'
            simp only [List.map_cons, List.chain'_cons] at h'
            exact h'.1
          have h2 : r.end_point ≤ endp := hle r.end_point (by simp [endPoints])
          omega
      subst hrest
      simp [extendToSegs, hs, heq, endPoints]
    · have hrestinc : StrictlyIncreasingEnds rest := by
        unfold StrictlyIncreasingEnds endPoints at hinc ⊢
        simp at hinc
        exact List.Chain'.tail hinc
      have hrestle : ∀ e ∈ endPoints rest, e ≤ endp := by
        intro e he
        exact hle e (by simp [endPoints] at he ⊢; tauto)
      have hrec := ih hrestinc hrestle
      cases rest with
      | nil =>
        simp [extendToSegs, hs, heq, endPoints]
      | cons r rest' =>
        have hlast : (endPoints (s :: r :: rest')).getLast? =
            (endPoints (r :: rest')).getLast? := by
          unfold endPoints
          simp [List.getLast?_cons_cons]
        rw [show extendToSegs (s :: r :: rest') endp (some d) =
            (extendToSegs (r :: rest') endp (if s.end_point = endp then none else some d)).map
              (fun out => s :: out) from by
          simp [extendToSegs, hs]]
        rw [if_neg heq, hrec, hlast]
        by_cases hl : (endPoints (r :: rest')).getLast? = some endp <;> simp [hl]

theorem mem_le_last_of_chain (l : List Int) (h : List.Chain' (fun a b => a < b) l) :
    ∀ e ∈ l, ∀ la ∈ l.getLast?, e ≤ la := by
  induction l with
  | nil => simp
  | cons a l ih =>
    intro e he la hla
    cases l with
    | nil =>
      simp at he hla
      omega
    | cons b l' =>
      rw [List.chain'_cons] at h
      rw [List.getLast?_cons_cons] at hla
      rcases List.mem_cons.mp he with rfl | he'
      · have hb : b ≤ la := ih h.2 b (by simp) la hla
        omega
      · exact ih h.2 e he' la hla

theorem extend_to_spec (segs : List RatingSegment) (endp : Int)
    (h1 : StrictlyIncreasingEnds segs) (h2 : ∀ e ∈ endPoints segs, e ≤ endp) :
    ∃ out, extend_to segs endp = some out ∧
      (endPoints out).getLast? = some endp ∧ StrictlyIncreasingEnds out := by
  unfold extend_to
  rw [extendToSegs_eq endp _ segs h1 h2]
  by_cases hl : (endPoints segs).getLast? = some endp
  · refine ⟨segs, by simp [hl], by simp [hl], h1⟩
  · refine ⟨segs ++ [{ end_point := endp, data := { rating := 0, delta := 0 } }],
      by simp [hl], ?_, ?_⟩
    · have heq : endPoints (segs ++ [({ end_point := endp, data := { rating := 0, delta := 0 } } : RatingSegment)]) = endPoints segs ++ [endp] := by
        simp [endPoints]
      rw [heq, List.getLast?_concat]
    · have hlt : ∀ e ∈ endPoints segs, e < endp := by
        intro e he
        have hle := h2 e he
        rcases Decidable.lt_or_eq_of_le hle with h | h
        · exact h
        · exfalso
          cases hgl : (endPoints segs).getLast? with
          | none =>
            rw [List.getLast?_eq_none_iff] at hgl
            rw [hgl] at he
            simp at he
          | some la =>
            have h3 := mem_le_last_of_chain _ h1 e he la (Option.mem_def.mpr hgl)
            have h4 : la ≤ endp := h2 la (List.mem_of_mem_getLast? (Option.mem_def.mpr hgl))
            have hla : la = endp := by omega
            rw [hla] at hgl
            exact hl hgl
      exact append_preserves segs endp _ h1 hlt


theorem chunkLoop_spec (size : Nat) :
    ∀ (n : Nat) (samples buffered : List Int), samples.length ≤ n → buffered.length < size →
    ∃ b cs, chunkLoop size buffered samples = some (b, cs) ∧
      b.length < size ∧
      (∀ c ∈ cs, c.length = size) ∧
      cs.flatten ++ b = buffered ++ samples := by
  intro n
  induction n with
  | zero =>
    intro samples buffered hlen hbuf
    have : samples = [] := List.length_eq_zero.mp (Nat.le_zero.mp hlen)
    subst this
    exact ⟨buffered, [], by rw [chunkLoop], hbuf, by simp, by simp⟩
  | succ n ih =>
    intro samples buffered hlen hbuf
    cases samples with
    | nil => exact ⟨buffered, [], by rw [chunkLoop], hbuf, by simp, by simp⟩
    | cons s ss =>
      rw [chunkLoop]
      rw [dif_pos hbuf]
      have hsc1 : 1 ≤ min (size - buffered.length) (s :: ss).length := by
        simp only [List.length_cons]
        omega
      have hscle : min (size - buffered.length) (s :: ss).length ≤ size - buffered.length :=
        Nat.min_le_left _ _
      have hreslen : ((s :: ss).drop (min (size - buffered.length) (s :: ss).length)).length ≤ n := by
        simp only [List.length_drop, List.length_cons]
        simp only [List.length_cons] at hlen
        omega
      have hnewlen : (buffered ++ (s :: ss).take (min (size - buffered.length) (s :: ss).length)).length ≤ size := by
        simp only [List.length_append, List.length_take]
        omega
      by_cases hfull : (buffered ++ (s :: ss).take (min (size - buffered.length) (s :: ss).length)).length = size
      · rw [if_pos hfull]
        obtain ⟨b, cs, hrec, hb, hcs, hflat⟩ := ih _ [] hreslen (by simp only [List.length_nil]; omega)
        refine ⟨b, (buffered ++ (s :: ss).take (min (size - buffered.length) (s :: ss).length)) :: cs, ?_, hb, ?_, ?_⟩
        · rw [hrec]
          rfl
        · intro c hc
          rcases List.mem_cons.mp hc with rfl | hc'
          · exact hfull
          · exact hcs c hc'
        · simp only [List.flatten_cons, List.append_assoc]
          rw [hflat]
          simp only [List.nil_append]
          rw [List.take_append_drop]
      · rw [if_neg hfull]
        obtain ⟨b, cs, hrec, hb, hcs, hflat⟩ :=
          ih ((s :: ss).drop (min (size - buffered.length) (s :: ss).length))
            (buffered ++ (s :: ss).take (min (size - buffered.length) (s :: ss).length))
            hreslen (by omega)
        refine ⟨b, cs, hrec, hb, hcs, ?_⟩
        rw [hflat]
        rw [List.append_assoc, List.take_append_drop]

theorem foldl_min_by_key_spec (f : Stream → Nat) :
    ∀ (xs : List Stream) (best : Stream),
    List.Pairwise (fun a b => a.index < b.index) (best :: xs) →
    (xs.foldl (fun best y => if f y < f best then y else best) best ∈ best :: xs ∧
     (∀ y ∈ best :: xs, f (xs.foldl (fun best y => if f y < f best then y else best) best) ≤ f y) ∧
     (∀ y ∈ best :: xs, f y = f (xs.foldl (fun best y => if f y < f best then y else best) best) →
        (xs.foldl (fun best y => if f y < f best then y else best) best).index ≤ y.index)) := by
  intro xs
  induction xs with
  | nil =>
    intro best _
    refine ⟨by simp, ?_, ?_⟩
    · intro y hy
      simp at hy
      rw [hy]
      simp
    · intro y hy _
      simp at hy
      rw [hy]
      simp
  | cons y ys ih =>
    intro best hpw
    simp only [List.foldl_cons]
    rcases List.pairwise_cons.mp hpw with ⟨hbest, hpw2⟩
    rcases List.pairwise_cons.mp hpw2 with ⟨hy, hpw3⟩
    have hbp : best.index < y.index := hbest y (by simp)
    by_cases hc : f y < f best
    · rw [if_pos hc]
      obtain ⟨hmem, hmin, hfirst⟩ := ih y (List.pairwise_cons.mpr ⟨hy, hpw3⟩)
      refine ⟨?_, ?_, ?_⟩
      · rcases List.mem_cons.mp hmem with h | h
        · rw [h]; simp
        · simp [h]
      · intro z hz
        rcases List.mem_cons.mp hz with hzb | hz'
        · rw [hzb]
          have h1 := hmin y (by simp)
          omega
        · exact hmin z hz'
      · intro z hz hfz
        rcases List.mem_cons.mp hz with hzb | hz'
        · exfalso
          have h1 := hmin y (by simp)
          rw [hzb] at hfz
          omega
        · exact hfirst z hz' hfz
    · rw [if_neg hc]
      have hpwb : List.Pairwise (fun a b => a.index < b.index) (best :: ys) := by
        rw [List.pairwise_cons]
        exact ⟨fun z hz => hbest z (by simp [hz]), hpw3⟩
      obtain ⟨hmem, hmin, hfirst⟩ := ih best hpwb
      refine ⟨?_, ?_, ?_⟩
      · rcases List.mem_cons.mp hmem with h | h
        · rw [h]; simp
        · simp [h]
      · intro z hz
        rcases List.mem_cons.mp hz with hzb | hz'
        · rw [hzb]
          exact hmin best (by simp)
        · rcases List.mem_cons.mp hz' with hzy | hz''
          · rw [hzy]
            have h1 := hmin best (by simp)
            omega
          · exact hmin z (by simp [hz''])
      · intro z hz hfz
        rcases List.mem_cons.mp hz with hzb | hz'
        · rw [hzb]
          rw [hzb] at hfz
          exact hfirst best (by simp) hfz
        · rcases List.mem_cons.mp hz' with hzy | hz''
          · rw [hzy]
            rw [hzy] at hfz
            have h1 := hmin best (by simp)
            have h2 := hfirst best (by simp) (by omega)
            omega
          · exact hfirst z (by simp [hz'']) hfz


/-! ## Claim theorems -/

/-- C1: the claim states that `RatingBuffer::maximum()` returns
`(rating, point)` with `point` in the signal's span, the signal's value at
`point` equal to `rating`, and `rating` the maximum attained value.  On the
buffer starting at 0 with the single segment `end_point = 2`, `rating = 0`,
`delta = 1` the code returns `(0, 1)`: the signal's value at the returned
point 1 is 1 (not the returned 0) and the attained value 1 exceeds the
returned rating, because the fold records `start_rating` instead of
`end_rating` when a segment's end rating beats the running maximum
(segments.rs line 229). -/
theorem C1_maximum_returns_unattained_rating :
    RatingBuffer.maximum { start := 0, buffer := [{ end_point := 2, data := { rating := 0, delta := 1 } }] } = (0, 1) ∧
    ratingValueAt 0 [{ end_point := 2, data := { rating := 0, delta := 1 } }] 1 = some 1 ∧
    ratingValueAt 0 [{ end_point := 2, data := { rating := 0, delta := 1 } }] 0 = some 0 ∧
    ((1 : Int) ≠ 0 ∧ (0 : Int) < 1) := by
  decide

/-- C6 (amended): `shift` and `shift_simple` (both shift every end point by
`t`), `append` under its ordering precondition (the appended end exceeds all
input ends), `extend_to` under its precondition (all ends at most the target,
from C10), and `add_rating` preserve strictly monotonically increasing
segment end points; `clamp_end` preserves them only under the additional
condition that every end point other than the last lies strictly below the
clamp point (otherwise two ends collapse onto the clamp value, see the
counterexample). -/
theorem C6_transforms_preserve_ordering_amended :
    (∀ {D : Type} (t : Int) (segs : List (Segment D)),
        StrictlyIncreasingEnds segs → StrictlyIncreasingEnds (shiftSegs t segs)) ∧
    (∀ {D : Type} (segs : List (Segment D)) (ep : Int) (d : D),
        StrictlyIncreasingEnds segs → (∀ e ∈ endPoints segs, e < ep) →
        StrictlyIncreasingEnds (appendSeg segs ep d)) ∧
    (∀ (segs : List RatingSegment) (endp : Int),
        StrictlyIncreasingEnds segs → (∀ e ∈ endPoints segs, e ≤ endp) →
        ∃ out, extend_to segs endp = some out ∧ StrictlyIncreasingEnds out) ∧
    (∀ (rd : Int) (segs : List RatingSegment),
        StrictlyIncreasingEnds segs → StrictlyIncreasingEnds (addRatingSegs rd segs)) ∧
    (∀ (clamp : Int) (segs : List RatingSegment),
        StrictlyIncreasingEnds segs → (∀ e ∈ (endPoints segs).dropLast, e < clamp) →
        StrictlyIncreasingEnds (clampEndSegs clamp segs)) := by
  refine ⟨?_, ?_, ?_, ?_, ?_⟩
  · intro D t segs h
    exact shift_preserves t segs h
  · intro D segs ep d h hlt
    exact append_preserves segs ep d h hlt
  · intro segs endp h1 h2
    obtain ⟨out, hout, _, hinc⟩ := extend_to_spec segs endp h1 h2
    exact ⟨out, hout, hinc⟩
  · intro rd segs h
    exact addRating_preserves rd segs h
  · intro clamp segs h hcl
    exact clampEnd_preserves clamp segs h hcl

/-- C6 witness: the amended theorem applied to concrete segment lists. -/
theorem C6_transforms_preserve_ordering_amended_witness :
    StrictlyIncreasingEnds
      (shiftSegs 5 [{ end_point := 1, data := RatingInfo.constant 0 },
                    { end_point := 3, data := RatingInfo.constant 0 }]) ∧
    (∃ out, extend_to [{ end_point := 1, data := RatingInfo.constant 0 }] 4 = some out ∧
      StrictlyIncreasingEnds out) := by
  constructor
  · exact C6_transforms_preserve_ordering_amended.1 5 _ (by decide)
  · exact C6_transforms_preserve_ordering_amended.2.2.1 _ 4 (by decide) (by decide)

/-- C6 counterexample: `clamp_end` does not preserve the ordering invariant
as the claim states: clamping the strictly increasing ends `[1, 2]` at 1
yields `[1, 1]`. -/
theorem C6_clamp_end_counterexample :
    StrictlyIncreasingEnds
      ([{ end_point := 1, data := RatingInfo.constant 0 },
        { end_point := 2, data := RatingInfo.constant 0 }] : List RatingSegment) ∧
    ¬ StrictlyIncreasingEnds
      (clampEndSegs 1 [{ end_point := 1, data := RatingInfo.constant 0 },
                       { end_point := 2, data := RatingInfo.constant 0 }]) := by
  constructor
  · decide
  · decide

/-- C10: `extend_to(end_point)` under its implicit precondition (every input
segment ends at or before `end_point`; the input is a signal, so its ends
strictly increase): the internal assertion never fails (the run yields
`some`), and the output's last segment ends exactly at `end_point` — covering
both the case where the input already reaches `end_point` and the case where
the zero-rating zero-slope tail is appended. -/
theorem C10_extend_to_no_panic_reaches_end (segs : List RatingSegment) (endp : Int)
    (h1 : StrictlyIncreasingEnds segs) (h2 : ∀ e ∈ endPoints segs, e ≤ endp) :
    ∃ out, extend_to segs endp = some out ∧ (endPoints out).getLast? = some endp := by
  obtain ⟨out, hout, hlast, _⟩ := extend_to_spec segs endp h1 h2
  exact ⟨out, hout, hlast⟩

/-- C10 witness: the theorem applied to an input ending before the target
(tail appended) and to an input that already reaches the target. -/
theorem C10_extend_to_no_panic_reaches_end_witness :
    (∃ out, extend_to [{ end_point := 2, data := { rating := 3, delta := 1 } }] 5 = some out ∧
      (endPoints out).getLast? = some 5) ∧
    (∃ out, extend_to [{ end_point := 5, data := { rating := 3, delta := 1 } }] 5 = some out ∧
      (endPoints out).getLast? = some 5) :=
  ⟨C10_extend_to_no_panic_reaches_end _ 5 (by decide) (by decide),
   C10_extend_to_no_panic_reaches_end _ 5 (by decide) (by decide)⟩

/-- C9 (corrected): whenever the decoder subprocess exits with a non-zero
or missing exit code, the exit-status handling inside
`extract_audio_stream` produces `ProcessErrorCode` carrying the exit code
when the captured stderr is empty and `ProcessErrorMessage` carrying the
stderr text otherwise — but `decode` does NOT surface these: its `map_err`
wrapper replaces whatever extraction error occurred with
`FailedExtractingAudio` carrying the file path and the ffmpeg command. -/
theorem C9_process_exit_error_selection_amended {T : Type} (file_path cmd_path : String)
    (args : List String) (code : Option Int) (stderr_str : String)
    (finish_result : Except DecoderError T) (h : code ≠ some 0) :
    extract_audio_stream_exit cmd_path code stderr_str finish_result =
      (if stderr_str.isEmpty then
        Except.error (DecoderError.ProcessErrorCode cmd_path code)
       else Except.error (DecoderError.ProcessErrorMessage stderr_str)) ∧
    decode_exit file_path cmd_path args code stderr_str finish_result =
      Except.error (DecoderError.FailedExtractingAudio file_path cmd_path args) := by
  have h1 : extract_audio_stream_exit cmd_path code stderr_str finish_result =
      (if stderr_str.isEmpty then
        Except.error (DecoderError.ProcessErrorCode cmd_path code)
       else Except.error (DecoderError.ProcessErrorMessage stderr_str)) := by
    cases code with
    | none => rfl
    | some n =>
      have hn : n ≠ 0 := fun hh => h (by rw [hh])
      unfold extract_audio_stream_exit
      split
      · next heq =>
          simp at heq
          exact absurd heq hn
      · rfl
  refine ⟨h1, ?_⟩
  unfold decode_exit
  rw [h1]
  by_cases hs : stderr_str.isEmpty
  · rw [if_pos hs]
    rfl
  · rw [if_neg hs]
    rfl

/-- C9 counterexample to the surfacing sentence: on exit code 1 the inner
handling selects `ProcessErrorCode` (empty stderr) or `ProcessErrorMessage`
(non-empty stderr), yet `decode` yields `FailedExtractingAudio` in both
cases — the process-error selection never reaches `decode`'s caller. -/
theorem C9_decode_wraps_process_errors_counterexample :
    extract_audio_stream_exit "ffmpeg" (some 1) "" (Except.ok ()) =
      Except.error (DecoderError.ProcessErrorCode "ffmpeg" (some 1)) ∧
    extract_audio_stream_exit "ffmpeg" (some 1) "boom" (Except.ok ()) =
      Except.error (DecoderError.ProcessErrorMessage "boom") ∧
    decode_exit "video.mkv" "ffmpeg" ["-i", "video.mkv"] (some 1) "" (Except.ok ()) =
      Except.error (DecoderError.FailedExtractingAudio "video.mkv" "ffmpeg"
        ["-i", "video.mkv"]) ∧
    decode_exit "video.mkv" "ffmpeg" ["-i", "video.mkv"] (some 1) "boom" (Except.ok ()) =
      Except.error (DecoderError.FailedExtractingAudio "video.mkv" "ffmpeg"
        ["-i", "video.mkv"]) := by
  exact ⟨rfl, rfl, rfl, rfl⟩

/-- C9 witness: a missing exit code with empty stderr. -/
theorem C9_process_exit_error_selection_amended_witness :
    extract_audio_stream_exit "ffmpeg" none "" (Except.ok ()) =
      (if ("" : String).isEmpty then
        Except.error (DecoderError.ProcessErrorCode "ffmpeg" none)
       else Except.error (DecoderError.ProcessErrorMessage "")) ∧
    decode_exit "video.mkv" "ffmpeg" [] none "" (Except.ok ()) =
      Except.error (DecoderError.FailedExtractingAudio "video.mkv" "ffmpeg" []) :=
  C9_process_exit_error_selection_amended "video.mkv" "ffmpeg" [] none "" (Except.ok ())
    (by decide)

/-- C7 (amended): from any reachable state (partial window shorter than the
window size), `push_samples` succeeds and (i) keeps the partial window
shorter than the window size, (ii) forwards only complete windows of exactly
the configured size to the inner receiver, (iii) conserves the samples in
order — the forwarded windows plus the buffered partial window are exactly
the previously held samples followed by the new ones, so a partial window is
buffered across successive calls — and (iv) `finish` forwards nothing
further: the buffered partial window is discarded on finalize, not flushed
(see the counterexample). -/
theorem C7_chunked_receiver_amended (r : ChunkedAudioReceiver) (samples : List Int)
    (hwf : r.buffered.length < r.size) :
    ∃ r', ChunkedAudioReceiver.push_samples r samples = some r' ∧
      r'.size = r.size ∧
      r'.buffered.length < r.size ∧
      (∀ c ∈ r'.forwarded, c ∈ r.forwarded ∨ c.length = r.size) ∧
      r'.forwarded.flatten ++ r'.buffered = r.forwarded.flatten ++ r.buffered ++ samples ∧
      ChunkedAudioReceiver.finish r' = r'.forwarded := by
  obtain ⟨b, cs, hloop, hb, hcs, hflat⟩ :=
    chunkLoop_spec r.size samples.length samples r.buffered (le_refl _) hwf
  refine ⟨{ size := r.size, buffered := b, forwarded := r.forwarded ++ cs }, ?_, rfl, hb, ?_, ?_, rfl⟩
  · unfold ChunkedAudioReceiver.push_samples
    rw [if_pos hwf, hloop]
  · intro c hc
    rcases List.mem_append.mp hc with h | h
    · exact Or.inl h
    · exact Or.inr (hcs c h)
  · simp only [List.flatten_append, List.append_assoc]
    rw [hflat]

/-- C7 witness: the amended theorem applied to a fresh receiver with window
size 2 and the samples `[1, 2, 3]`. -/
theorem C7_chunked_receiver_amended_witness :
    ∃ r', ChunkedAudioReceiver.push_samples { size := 2, buffered := [], forwarded := [] } [1, 2, 3] = some r' ∧
      r'.size = 2 ∧
      r'.buffered.length < 2 ∧
      (∀ c ∈ r'.forwarded, c ∈ ([] : List (List Int)) ∨ c.length = 2) ∧
      r'.forwarded.flatten ++ r'.buffered = ([] : List (List Int)).flatten ++ [] ++ [1, 2, 3] ∧
      ChunkedAudioReceiver.finish r' = r'.forwarded :=
  C7_chunked_receiver_amended { size := 2, buffered := [], forwarded := [] } [1, 2, 3] (by decide)

/-- C7 counterexample: after pushing `[1, 2, 3]` into a fresh window-2
receiver, the sample 3 sits in the partial window, and `finish` returns only
the forwarded window `[1, 2]` — the partial window is not flushed on
finalize, contradicting the claim (the spec-modelled flushing finalize would
return `[[1, 2], [3]]`). -/
theorem C7_finish_discards_partial_counterexample :
    ChunkedAudioReceiver.push_samples { size := 2, buffered := [], forwarded := [] } [1, 2, 3] =
      some { size := 2, buffered := [3], forwarded := [[1, 2]] } ∧
    ChunkedAudioReceiver.finish { size := 2, buffered := [3], forwarded := [[1, 2]] } = [[1, 2]] ∧
    ChunkedAudioReceiver.finishFlushSpec { size := 2, buffered := [3], forwarded := [[1, 2]] } =
      [[1, 2], [3]] ∧
    ChunkedAudioReceiver.finish { size := 2, buffered := [3], forwarded := [[1, 2]] } ≠
      ChunkedAudioReceiver.finishFlushSpec { size := 2, buffered := [3], forwarded := [[1, 2]] } := by
  refine ⟨?_, rfl, by decide, by decide⟩
  simp [ChunkedAudioReceiver.push_samples, chunkLoop]

/-- C8: when no audio stream index is specified and the metadata lists the
file's streams in increasing stream-index order, the decoder selects an
audio stream (with channel information) whose channel count is minimal among
all such streams, and whose stream index is least among those attaining the
minimal channel count (Rust's `min_by_key` keeps the first minimum). -/
theorem C8_fewest_channels_lowest_index (streams : List Stream)
    (hidx : List.Pairwise (fun a b => a.index < b.index) streams)
    (hne : streams.filter isSelectableAudio ≠ []) :
    ∃ best, selectAudioStream streams none = some best ∧
      isSelectableAudio best = true ∧ best ∈ streams ∧
      ∀ s ∈ streams, isSelectableAudio s = true →
        (best.channels.getD 0 ≤ s.channels.getD 0 ∧
         (s.channels.getD 0 = best.channels.getD 0 → best.index ≤ s.index)) := by
  cases hfa : streams.filter isSelectableAudio with
  | nil => exact absurd hfa hne
  | cons x xs =>
    have hpw : List.Pairwise (fun a b => a.index < b.index) (x :: xs) := by
      rw [← hfa]
      exact hidx.filter _
    obtain ⟨hmem, hmin, hfirst⟩ := foldl_min_by_key_spec (fun s => s.channels.getD 0) xs x hpw
    have hmemf : (xs.foldl (fun best y => if y.channels.getD 0 < best.channels.getD 0 then y else best) x) ∈ streams.filter isSelectableAudio := by
      rw [hfa]
      exact hmem
    refine ⟨xs.foldl (fun best y => if y.channels.getD 0 < best.channels.getD 0 then y else best) x,
      ?_, ?_, ?_, ?_⟩
    · unfold selectAudioStream
      simp only []
      rw [hfa]
      rfl
    · exact List.of_mem_filter hmemf
    · exact List.mem_of_mem_filter hmemf
    · intro s hs hsel
      have hsf : s ∈ x :: xs := by
        rw [← hfa]
        exact List.mem_filter.mpr ⟨hs, hsel⟩
      exact ⟨hmin s hsf, fun he => hfirst s hsf he⟩

/-- C8 witness: a video stream followed by three audio streams with channel
counts 2, 1, 1 — the selected stream must be the first one-channel stream
(index 2). -/
theorem C8_fewest_channels_lowest_index_witness :
    ∃ best, selectAudioStream
        [{ index := 0, channels := none, duration := none, codec_type := CodecType.Video },
         { index := 1, channels := some 2, duration := none, codec_type := CodecType.Audio },
         { index := 2, channels := some 1, duration := none, codec_type := CodecType.Audio },
         { index := 3, channels := some 1, duration := none, codec_type := CodecType.Audio }] none = some best ∧
      isSelectableAudio best = true ∧
      best ∈ [{ index := 0, channels := none, duration := none, codec_type := CodecType.Video },
         { index := 1, channels := some 2, duration := none, codec_type := CodecType.Audio },
         { index := 2, channels := some 1, duration := none, codec_type := CodecType.Audio },
         { index := 3, channels := some 1, duration := none, codec_type := CodecType.Audio }] ∧
      ∀ s ∈ [{ index := 0, channels := none, duration := none, codec_type := CodecType.Video },
         { index := 1, channels := some 2, duration := none, codec_type := CodecType.Audio },
         { index := 2, channels := some 1, duration := none, codec_type := CodecType.Audio },
         { index := 3, channels := some 1, duration := none, codec_type := CodecType.Audio }],
        isSelectableAudio s = true →
        (best.channels.getD 0 ≤ s.channels.getD 0 ∧
         (s.channels.getD 0 = best.channels.getD 0 → best.index ≤ s.index)) :=
  C8_fewest_channels_lowest_index _ (by decide) (by decide)


theorem simplifyRatingsGo_valueAt (segs : List RatingSegment) :
    ∀ (acc : RatingFullSegment) (t : Int),
    acc.span.start < acc.span.endp →
    WFSegs acc.span.endp segs →
    fullRatingValueAt (simplifyRatingsGo acc segs) t =
      (if acc.span.start ≤ t ∧ t < acc.span.endp then some (acc.data.get_at (t - acc.span.start))
       else ratingValueAt acc.span.endp segs t) := by
  induction segs with
  | nil =>
    intro acc t hacc hwf
    simp [simplifyRatingsGo, fullRatingValueAt, ratingValueAt]
  | cons next rest ih =>
    intro acc t hacc hwf
    unfold WFSegs endPoints at hwf
    simp only [List.map_cons, List.chain_cons] at hwf
    obtain ⟨hlt, hchain⟩ := hwf
    have hwfrest : WFSegs next.end_point rest := hchain
    by_cases hm : acc.data.delta = next.data.delta ∧
        acc.exclusive_end_rating = next.data.start_rating
    · have hd : acc.data.delta = next.data.delta := hm.1
      have hr : acc.data.rating + acc.data.delta * (acc.span.endp - acc.span.start) =
          next.data.rating := by
        have h2 := hm.2
        unfold RatingFullSegment.exclusive_end_rating Rating.add_mul PointSpan.len
          RatingInfo.start_rating at h2
        exact h2
      rw [show simplifyRatingsGo acc (next :: rest) =
          simplifyRatingsGo { span := { start := acc.span.start, endp := next.end_point },
                              data := acc.data } rest from by
        rw [simplifyRatingsGo, if_pos hm]]
      rw [ih _ t (by simp; omega) (by simpa using hwfrest)]
      simp only []
      rw [ratingValueAt]
      rcases Decidable.em (acc.span.start ≤ t ∧ t < acc.span.endp) with h1 | h1
      · rw [if_pos ⟨h1.1, by omega⟩, if_pos h1]
      · rcases Decidable.em (acc.span.endp ≤ t ∧ t < next.end_point) with h2 | h2
        · rw [if_pos ⟨by omega, h2.2⟩, if_neg h1, if_pos h2]
          congr 1
          unfold RatingInfo.get_at Rating.add_mul
          rw [← hd, ← hr]
          ring
        · rw [if_neg (by omega : ¬(acc.span.start ≤ t ∧ t < next.end_point)), if_neg h1,
            if_neg h2]
    · rw [show simplifyRatingsGo acc (next :: rest) =
          acc :: simplifyRatingsGo (next.with_start_point acc.span.endp) rest from by
        rw [simplifyRatingsGo, if_neg hm]]
      rw [fullRatingValueAt]
      rw [ih (next.with_start_point acc.span.endp) t
        (by simp [Segment.with_start_point]; omega)
        (by simpa [Segment.with_start_point] using hwfrest)]
      simp only [Segment.with_start_point]
      rw [ratingValueAt]

theorem simplifyRatingsGo_chained (segs : List RatingSegment) :
    ∀ (acc : RatingFullSegment),
    acc.span.start < acc.span.endp →
    WFSegs acc.span.endp segs →
    WFFullFrom acc.span.start (simplifyRatingsGo acc segs) := by
  induction segs with
  | nil =>
    intro acc hacc _
    exact ⟨rfl, hacc, trivial⟩
  | cons next rest ih =>
    intro acc hacc hwf
    unfold WFSegs endPoints at hwf
    simp only [List.map_cons, List.chain_cons] at hwf
    obtain ⟨hlt, hchain⟩ := hwf
    by_cases hm : acc.data.delta = next.data.delta ∧
        acc.exclusive_end_rating = next.data.start_rating
    · rw [show simplifyRatingsGo acc (next :: rest) =
          simplifyRatingsGo { span := { start := acc.span.start, endp := next.end_point },
                              data := acc.data } rest from by
        rw [simplifyRatingsGo, if_pos hm]]
      exact ih { span := { start := acc.span.start, endp := next.end_point }, data := acc.data }
        (by simp only []; omega) (by simpa using hchain)
    · rw [show simplifyRatingsGo acc (next :: rest) =
          acc :: simplifyRatingsGo (next.with_start_point acc.span.endp) rest from by
        rw [simplifyRatingsGo, if_neg hm]]
      exact ⟨rfl, hacc, ih (next.with_start_point acc.span.endp)
        (by simp only [Segment.with_start_point]; omega)
        (by simpa [Segment.with_start_point] using hchain)⟩

theorem ratingValueAt_discard (l : List RatingFullSegment) :
    ∀ (p t : Int), WFFullFrom p l →
    ratingValueAt p (l.map FullSegment.discard_start_time) t = fullRatingValueAt l t := by
  induction l with
  | nil =>
    intro p t _
    simp [ratingValueAt, fullRatingValueAt]
  | cons s rest ih =>
    intro p t hwf
    obtain ⟨h1, _, h3⟩ := hwf
    rw [List.map_cons, ratingValueAt, fullRatingValueAt, FullSegment.discard_start_time]
    simp only []
    rw [h1, ih s.span.endp t h3]

theorem simplifyRatings_valueAt (start : Int) (segs : List RatingSegment) (t : Int)
    (hwf : WFSegs start segs) :
    fullRatingValueAt (simplifyRatings start segs) t = ratingValueAt start segs t := by
  cases segs with
  | nil => simp [simplifyRatings, fullRatingValueAt, ratingValueAt]
  | cons s rest =>
    unfold WFSegs endPoints at hwf
    simp only [List.map_cons, List.chain_cons] at hwf
    rw [simplifyRatings]
    rw [simplifyRatingsGo_valueAt rest (s.with_start_point start) t
      (by simpa [Segment.with_start_point] using hwf.1)
      (by simpa [Segment.with_start_point] using hwf.2)]
    simp only [Segment.with_start_point]
    rw [ratingValueAt]

theorem save_simplified_valueAt (start : Int) (segs : List RatingSegment) (t : Int)
    (hwf : WFSegs start segs) :
    ratingValueAt start (save_simplified start segs).buffer t = ratingValueAt start segs t := by
  unfold save_simplified
  simp only []
  rw [← simplifyRatings_valueAt start segs t hwf]
  cases segs with
  | nil => simp [simplifyRatings, ratingValueAt, fullRatingValueAt]
  | cons s rest =>
    unfold WFSegs endPoints at hwf
    simp only [List.map_cons, List.chain_cons] at hwf
    have hch := simplifyRatingsGo_chained rest (s.with_start_point start)
      (by simpa [Segment.with_start_point] using hwf.1)
      (by simpa [Segment.with_start_point] using hwf.2)
    rw [simplifyRatings]
    have := ratingValueAt_discard (simplifyRatingsGo (s.with_start_point start) rest) start t
    rw [this]
    have hstart : (s.with_start_point start).span.start = start := rfl
    rw [← hstart]
    exact hch

theorem dualSimplifyGo_valueAt (segs : List DualSegment) :
    ∀ (acc : DualFullSegment) (t : Int),
    acc.span.start < acc.span.endp →
    WFSegs acc.span.endp segs →
    (dualFullRatingValueAt (dualSimplifyGo acc segs) t =
      (if acc.span.start ≤ t ∧ t < acc.span.endp then
        some (acc.data.rating_info.get_at (t - acc.span.start))
       else dualRatingValueAt acc.span.endp segs t)) ∧
    (dualFullOffsetValueAt (dualSimplifyGo acc segs) t =
      (if acc.span.start ≤ t ∧ t < acc.span.endp then
        some (acc.data.offset_info.advanced_offset (t - acc.span.start))
       else dualOffsetValueAt acc.span.endp segs t)) := by
  induction segs with
  | nil =>
    intro acc t hacc hwf
    constructor
    · simp [dualSimplifyGo, dualFullRatingValueAt, dualRatingValueAt, ratingValueAt]
    · simp [dualSimplifyGo, dualFullOffsetValueAt, dualOffsetValueAt, offsetValueAt]
  | cons next rest ih =>
    intro acc t hacc hwf
    unfold WFSegs endPoints at hwf
    simp only [List.map_cons, List.chain_cons] at hwf
    obtain ⟨hlt, hchain⟩ := hwf
    by_cases hm : next.data.rating_info.delta = acc.data.rating_info.delta ∧
       next.data.offset_info.drag = acc.data.offset_info.drag ∧
       acc.exclusive_end_offset = next.data.offset_info.offset ∧
       acc.exclusive_end_rating = next.data.rating_info.rating
    · have hrw : dualSimplifyGo acc (next :: rest) =
          dualSimplifyGo { span := { start := acc.span.start, endp := next.end_point },
                           data := acc.data } rest := by
        rw [dualSimplifyGo, if_pos hm]
      have hd : next.data.rating_info.delta = acc.data.rating_info.delta := hm.1
      have hdrag : next.data.offset_info.drag = acc.data.offset_info.drag := hm.2.1
      have hoff : acc.exclusive_end_offset = next.data.offset_info.offset := hm.2.2.1
      have hr : acc.data.rating_info.rating +
          acc.data.rating_info.delta * (acc.span.endp - acc.span.start) =
          next.data.rating_info.rating := by
        have h2 := hm.2.2.2
        unfold DualFullSegment.exclusive_end_rating RatingInfo.exclusive_end_rating
          Rating.add_mul PointSpan.len at h2
        exact h2
      obtain ⟨ihr, iho⟩ := ih { span := { start := acc.span.start, endp := next.end_point },
                                data := acc.data } t (by simp only []; omega)
        (by simpa using hchain)
      rw [hrw]
      constructor
      · rw [ihr]
        simp only []
        unfold dualRatingValueAt
        rw [List.map_cons, ratingValueAt]
        simp only [DualSegment.as_rating_segment]
        rcases Decidable.em (acc.span.start ≤ t ∧ t < acc.span.endp) with h1 | h1
        · rw [if_pos ⟨h1.1, by omega⟩, if_pos h1]
        · rcases Decidable.em (acc.span.endp ≤ t ∧ t < next.end_point) with h2 | h2
          · rw [if_pos ⟨by omega, h2.2⟩, if_neg h1, if_pos h2]
            congr 1
            unfold RatingInfo.get_at Rating.add_mul
            rw [hd, ← hr]
            ring
          · rw [if_neg (by omega : ¬(acc.span.start ≤ t ∧ t < next.end_point)), if_neg h1,
              if_neg h2]
      · rw [iho]
        simp only []
        unfold dualOffsetValueAt
        rw [List.map_cons, offsetValueAt]
        simp only [DualSegment.as_offset_segment]
        rcases Decidable.em (acc.span.start ≤ t ∧ t < acc.span.endp) with h1 | h1
        · rw [if_pos ⟨h1.1, by omega⟩, if_pos h1]
        · rcases Decidable.em (acc.span.endp ≤ t ∧ t < next.end_point) with h2 | h2
          · rw [if_pos ⟨by omega, h2.2⟩, if_neg h1, if_pos h2]
            congr 1
            unfold OffsetInfo.advanced_offset
            unfold DualFullSegment.exclusive_end_offset OffsetInfo.exclusive_end_offset
              PointSpan.len at hoff
            by_cases hdr : acc.data.offset_info.drag
            · rw [if_pos hdr, if_pos (by rw [hdrag]; exact hdr)]
              rw [if_pos hdr] at hoff
              omega
            · rw [if_neg hdr, if_neg (by rw [hdrag]; exact hdr)]
              rw [if_neg hdr] at hoff
              omega
          · rw [if_neg (by omega : ¬(acc.span.start ≤ t ∧ t < next.end_point)), if_neg h1,
              if_neg h2]
    · have hrw : dualSimplifyGo acc (next :: rest) =
          acc :: dualSimplifyGo (next.with_start_point acc.span.endp) rest := by
        rw [dualSimplifyGo, if_neg hm]
      obtain ⟨ihr, iho⟩ := ih (next.with_start_point acc.span.endp) t
        (by simp only [Segment.with_start_point]; omega)
        (by simpa [Segment.with_start_point] using hchain)
      rw [hrw]
      constructor
      · rw [dualFullRatingValueAt, ihr]
        simp only [Segment.with_start_point]
        unfold dualRatingValueAt
        rw [List.map_cons, ratingValueAt]
        simp only [DualSegment.as_rating_segment]
      · rw [dualFullOffsetValueAt, iho]
        simp only [Segment.with_start_point]
        unfold dualOffsetValueAt
        rw [List.map_cons, offsetValueAt]
        simp only [DualSegment.as_offset_segment]

theorem dualSimplify_valueAt (start : Int) (segs : List DualSegment) (t : Int)
    (hwf : WFSegs start segs) :
    dualFullRatingValueAt (dualSimplify start segs) t = dualRatingValueAt start segs t ∧
    dualFullOffsetValueAt (dualSimplify start segs) t = dualOffsetValueAt start segs t := by
  cases segs with
  | nil =>
    constructor
    · simp [dualSimplify, dualFullRatingValueAt, dualRatingValueAt, ratingValueAt]
    · simp [dualSimplify, dualFullOffsetValueAt, dualOffsetValueAt, offsetValueAt]
  | cons s rest =>
    unfold WFSegs endPoints at hwf
    simp only [List.map_cons, List.chain_cons] at hwf
    obtain ⟨ihr, iho⟩ := dualSimplifyGo_valueAt rest (s.with_start_point start) t
      (by simpa [Segment.with_start_point] using hwf.1)
      (by simpa [Segment.with_start_point] using hwf.2)
    rw [dualSimplify]
    constructor
    · rw [ihr]
      simp only [Segment.with_start_point]
      unfold dualRatingValueAt
      rw [List.map_cons, ratingValueAt]
      simp only [DualSegment.as_rating_segment]
    · rw [iho]
      simp only [Segment.with_start_point]
      unfold dualOffsetValueAt
      rw [List.map_cons, offsetValueAt]
      simp only [DualSegment.as_offset_segment]

/-- C5: exact simplification preserves the piecewise function: for every
rating signal, `save_simplified` keeps the start and the value at every
point; for every dual signal, `simplify` (`DualSimplifyIterator`) keeps both
the rating value and the offset value at every point.  Adjacent segments are
merged only when their deltas (and drags) are identical and the previous
segment's exclusive end rating (and exclusive end offset) equals the next
segment's start rating (and start offset). -/
theorem C5_simplify_value_preserving (start t : Int) (rsegs : List RatingSegment)
    (dsegs : List DualSegment) (hwfr : WFSegs start rsegs) (hwfd : WFSegs start dsegs) :
    ((save_simplified start rsegs).start = start ∧
     ratingValueAt start (save_simplified start rsegs).buffer t = ratingValueAt start rsegs t) ∧
    (dualFullRatingValueAt (dualSimplify start dsegs) t = dualRatingValueAt start dsegs t ∧
     dualFullOffsetValueAt (dualSimplify start dsegs) t = dualOffsetValueAt start dsegs t) :=
  ⟨⟨rfl, save_simplified_valueAt start rsegs t hwfr⟩, dualSimplify_valueAt start dsegs t hwfd⟩

/-- C5 witness: concrete mergeable rating and dual signals evaluated at
`t = 3`. -/
theorem C5_simplify_value_preserving_witness :
    (((save_simplified 0 [{ end_point := 2, data := { rating := 0, delta := 1 } }, { end_point := 4, data := { rating := 2, delta := 1 } }]).start = 0 ∧
     ratingValueAt 0 (save_simplified 0 [{ end_point := 2, data := { rating := 0, delta := 1 } }, { end_point := 4, data := { rating := 2, delta := 1 } }]).buffer 3 = ratingValueAt 0 [{ end_point := 2, data := { rating := 0, delta := 1 } }, { end_point := 4, data := { rating := 2, delta := 1 } }] 3) ∧
    (dualFullRatingValueAt (dualSimplify 0 [{ end_point := 2, data := { offset_info := { offset := 5, drag := true }, rating_info := { rating := 0, delta := 1 } } }, { end_point := 4, data := { offset_info := { offset := 7, drag := true }, rating_info := { rating := 2, delta := 1 } } }]) 3 = dualRatingValueAt 0 [{ end_point := 2, data := { offset_info := { offset := 5, drag := true }, rating_info := { rating := 0, delta := 1 } } }, { end_point := 4, data := { offset_info := { offset := 7, drag := true }, rating_info := { rating := 2, delta := 1 } } }] 3 ∧
     dualFullOffsetValueAt (dualSimplify 0 [{ end_point := 2, data := { offset_info := { offset := 5, drag := true }, rating_info := { rating := 0, delta := 1 } } }, { end_point := 4, data := { offset_info := { offset := 7, drag := true }, rating_info := { rating := 2, delta := 1 } } }]) 3 = dualOffsetValueAt 0 [{ end_point := 2, data := { offset_info := { offset := 5, drag := true }, rating_info := { rating := 0, delta := 1 } } }, { end_point := 4, data := { offset_info := { offset := 7, drag := true }, rating_info := { rating := 2, delta := 1 } } }] 3)) :=
  C5_simplify_value_preserving 0 3 _ _ (by decide) (by decide)


theorem ratingValueAt_advance (P Pn : Int) (s2 : RatingSegment) (rest : List RatingSegment)
    (hP : P ≤ Pn) :
    ∀ t, Pn ≤ t →
    ratingValueAt Pn ((s2.advance (Pn - P)) :: rest) t = ratingValueAt P (s2 :: rest) t := by
  intro t ht
  rw [ratingValueAt, ratingValueAt]
  have hend : (s2.advance (Pn - P)).end_point = s2.end_point := rfl
  rw [hend]
  by_cases h : t < s2.end_point
  · rw [if_pos ⟨ht, h⟩, if_pos ⟨by omega, h⟩]
    congr 1
    unfold RatingSegment.advance RatingInfo.advanced RatingInfo.get_at Rating.add_mul
    simp only []
    ring
  · rw [if_neg (by omega), if_neg (by omega)]

theorem dualRatingValueAt_advance (P Pn : Int) (s1 : DualSegment) (rest : List DualSegment)
    (hP : P ≤ Pn) :
    ∀ t, Pn ≤ t →
    dualRatingValueAt Pn ((s1.advance (Pn - P)) :: rest) t = dualRatingValueAt P (s1 :: rest) t := by
  intro t ht
  unfold dualRatingValueAt
  rw [List.map_cons, List.map_cons, ratingValueAt, ratingValueAt]
  have hend : (DualSegment.as_rating_segment (s1.advance (Pn - P))).end_point = s1.end_point := rfl
  rw [hend]
  simp only [DualSegment.as_rating_segment]
  by_cases h : t < s1.end_point
  · rw [if_pos ⟨ht, h⟩, if_pos ⟨by omega, h⟩]
    congr 1
    unfold DualSegment.advance RatingInfo.advanced RatingInfo.get_at Rating.add_mul
    simp only []
    ring
  · rw [if_neg (by omega), if_neg (by omega)]

theorem WFSegs_cons {D : Type} (P : Int) (s : Segment D) (rest : List (Segment D)) :
    WFSegs P (s :: rest) ↔ P < s.end_point ∧ WFSegs s.end_point rest := by
  unfold WFSegs endPoints
  rw [List.map_cons, List.chain_cons]

theorem ratingValueAt_cons (P : Int) (s : RatingSegment) (rest : List RatingSegment) (t : Int) :
    ratingValueAt P (s :: rest) t =
      (if P ≤ t ∧ t < s.end_point then some (s.data.get_at (t - P))
       else ratingValueAt s.end_point rest t) := rfl

theorem dualRatingValueAt_cons (P : Int) (s : DualSegment) (rest : List DualSegment) (t : Int) :
    dualRatingValueAt P (s :: rest) t =
      (if P ≤ t ∧ t < s.end_point then some (s.data.rating_info.get_at (t - P))
       else dualRatingValueAt s.end_point rest t) := rfl

theorem dualOffsetValueAt_cons (P : Int) (s : DualSegment) (rest : List DualSegment) (t : Int) :
    dualOffsetValueAt P (s :: rest) t =
      (if P ≤ t ∧ t < s.end_point then some (s.data.offset_info.advanced_offset (t - P))
       else dualOffsetValueAt s.end_point rest t) := rfl

theorem dualFullRatingValueAt_cons (s : DualFullSegment) (rest : List DualFullSegment) (t : Int) :
    dualFullRatingValueAt (s :: rest) t =
      (if s.span.start ≤ t ∧ t < s.span.endp then
        some (s.data.rating_info.get_at (t - s.span.start))
       else dualFullRatingValueAt rest t) := rfl

theorem dualFullOffsetValueAt_cons (s : DualFullSegment) (rest : List DualFullSegment) (t : Int) :
    dualFullOffsetValueAt (s :: rest) t =
      (if s.span.start ≤ t ∧ t < s.span.endp then
        some (s.data.offset_info.advanced_offset (t - s.span.start))
       else dualFullOffsetValueAt rest t) := rfl

theorem endPoints_getLast_cons_cons {D : Type} (a b : Segment D) (l : List (Segment D)) :
    (endPoints (a :: b :: l)).getLast? = (endPoints (b :: l)).getLast? := by
  unfold endPoints
  simp [List.getLast?_cons_cons]

theorem endPoints_ratingAdvance_cons (s2 : RatingSegment) (l : Int)
    (rest : List RatingSegment) :
    endPoints (s2.advance l :: rest) = endPoints (s2 :: rest) := rfl

theorem endPoints_dualAdvance_cons (s1 : DualSegment) (l : Int) (rest : List DualSegment) :
    endPoints (s1.advance l :: rest) = endPoints (s1 :: rest) := rfl

theorem last_end_exists {D : Type} (P : Int) (s : Segment D) (rest : List (Segment D))
    (h : WFSegs P (s :: rest)) :
    ∃ L, (endPoints (s :: rest)).getLast? = some L ∧ s.end_point ≤ L := by
  have hne : endPoints (s :: rest) ≠ [] := by simp [endPoints]
  cases hL : (endPoints (s :: rest)).getLast? with
  | none => exact absurd (List.getLast?_eq_none_iff.mp hL) hne
  | some L =>
    refine ⟨L, rfl, ?_⟩
    have hch : List.Chain' (fun a b => a < b) (P :: endPoints (s :: rest)) := h
    have hch2 : List.Chain' (fun a b => a < b) (endPoints (s :: rest)) := hch.tail
    exact mem_le_last_of_chain _ hch2 s.end_point (by simp [endPoints])
      L (Option.mem_def.mpr hL)

theorem ratingAdder2_eq_lt1 (P : Int) (s1 r1 : DualSegment) (s2 : RatingSegment)
    (rest1 : List DualSegment) (rest2 : List RatingSegment) (h : s1.end_point < s2.end_point) :
    ratingAdder2 P s1 s2 (r1 :: rest1) rest2 =
      (ratingAdder2 s1.end_point r1 (s2.advance (s1.end_point - P)) rest1 rest2).map
        (fun out => RatingAdderIterator2.generate_segment P s1 s2 s1.end_point :: out) := by
  rw [ratingAdder2.eq_def]
  simp only []
  rw [if_pos h]

theorem ratingAdder2_eq_lt2 (P : Int) (s1 : DualSegment) (s2 r2 : RatingSegment)
    (rest1 : List DualSegment) (rest2 : List RatingSegment) (h : s2.end_point < s1.end_point) :
    ratingAdder2 P s1 s2 rest1 (r2 :: rest2) =
      (ratingAdder2 s2.end_point (s1.advance (s2.end_point - P)) r2 rest1 rest2).map
        (fun out => RatingAdderIterator2.generate_segment P s1 s2 s2.end_point :: out) := by
  rw [ratingAdder2.eq_def]
  simp only []
  rw [if_neg (by omega), if_pos h]

theorem ratingAdder2_eq_both (P : Int) (s1 r1 : DualSegment) (s2 r2 : RatingSegment)
    (rest1 : List DualSegment) (rest2 : List RatingSegment) (h : s1.end_point = s2.end_point) :
    ratingAdder2 P s1 s2 (r1 :: rest1) (r2 :: rest2) =
      (ratingAdder2 s1.end_point r1 r2 rest1 rest2).map
        (fun out => RatingAdderIterator2.generate_segment P s1 s2 s1.end_point :: out) := by
  rw [ratingAdder2.eq_def]
  simp only []
  rw [if_neg (by omega), if_neg (by omega)]

theorem ratingAdder2_eq_finish (P : Int) (s1 : DualSegment) (s2 : RatingSegment)
    (h : s1.end_point = s2.end_point) :
    ratingAdder2 P s1 s2 [] [] =
      some [RatingAdderIterator2.generate_segment P s1 s2 s1.end_point] := by
  rw [ratingAdder2.eq_def]
  simp only []
  rw [if_neg (by omega), if_neg (by omega)]

theorem ratingAdder2_spec (n : Nat) :
    ∀ (rest1 : List DualSegment) (rest2 : List RatingSegment)
      (P : Int) (s1 : DualSegment) (s2 : RatingSegment),
    rest1.length + rest2.length ≤ n →
    WFSegs P (s1 :: rest1) → WFSegs P (s2 :: rest2) →
    (endPoints (s1 :: rest1)).getLast? = (endPoints (s2 :: rest2)).getLast? →
    ∃ out, ratingAdder2 P s1 s2 rest1 rest2 = some out ∧
      ∀ t v1 v2, P ≤ t →
        dualRatingValueAt P (s1 :: rest1) t = some v1 →
        ratingValueAt P (s2 :: rest2) t = some v2 →
        dualFullRatingValueAt out t = some (v1 + v2) := by
  induction n using Nat.strong_induction_on with
  | _ n ih =>
  intro rest1 rest2 P s1 s2 hlen hwf1 hwf2 hco
  obtain ⟨hP1, hch1⟩ := (WFSegs_cons P s1 rest1).mp hwf1
  obtain ⟨hP2, hch2⟩ := (WFSegs_cons P s2 rest2).mp hwf2
  rcases lt_trichotomy s1.end_point s2.end_point with hcmp | hcmp | hcmp
  · -- first current segment ends first: pull from iterator 1
    cases rest1 with
    | nil =>
      exfalso
      obtain ⟨L2, hL2, hgeL2⟩ := last_end_exists P s2 rest2 hwf2
      have h1 : (endPoints ([s1] : List DualSegment)).getLast? = some s1.end_point := by
        simp [endPoints]
      rw [h1, hL2] at hco
      have : s1.end_point = L2 := by injection hco
      omega
    | cons r1 rest1' =>
      have hwf1' : WFSegs s1.end_point (r1 :: rest1') := hch1
      have hwf2' : WFSegs s1.end_point ((s2.advance (s1.end_point - P)) :: rest2) :=
        (WFSegs_cons s1.end_point (s2.advance (s1.end_point - P)) rest2).mpr ⟨hcmp, hch2⟩
      have hco' : (endPoints (r1 :: rest1')).getLast? =
          (endPoints ((s2.advance (s1.end_point - P)) :: rest2)).getLast? := by
        rw [endPoints_ratingAdvance_cons]
        rw [← endPoints_getLast_cons_cons s1 r1 rest1']
        exact hco
      obtain ⟨out', hout', hval'⟩ := ih (rest1'.length + rest2.length)
        (by simp at hlen ⊢; omega) rest1' rest2 s1.end_point r1
        (s2.advance (s1.end_point - P)) (le_refl _) hwf1' hwf2' hco'
      refine ⟨RatingAdderIterator2.generate_segment P s1 s2 s1.end_point :: out', ?_, ?_⟩
      · rw [ratingAdder2_eq_lt1 P s1 r1 s2 rest1' rest2 hcmp, hout']
        rfl
      · intro t v1 v2 hPt hv1 hv2
        rw [dualFullRatingValueAt_cons]
        by_cases hin : t < s1.end_point
        · rw [if_pos ⟨hPt, hin⟩]
          rw [dualRatingValueAt_cons, if_pos ⟨hPt, hin⟩] at hv1
          rw [ratingValueAt_cons, if_pos ⟨hPt, by omega⟩] at hv2
          have hv1' := Option.some.inj hv1
          have hv2' := Option.some.inj hv2
          rw [← hv1', ← hv2']
          congr 1
          unfold RatingAdderIterator2.generate_segment RatingInfo.get_at Rating.add_mul
          simp only []
          ring
        · rw [if_neg (by simp only [RatingAdderIterator2.generate_segment]; omega)]
          rw [dualRatingValueAt_cons, if_neg (by omega)] at hv1
          have hv2'' : ratingValueAt s1.end_point
              ((s2.advance (s1.end_point - P)) :: rest2) t = some v2 := by
            rw [ratingValueAt_advance P s1.end_point s2 rest2 (by omega) t (by omega)]
            exact hv2
          exact hval' t v1 v2 (by omega) hv1 hv2''
  · -- equal end points
    cases rest1 with
    | nil =>
      cases rest2 with
      | nil =>
        refine ⟨[RatingAdderIterator2.generate_segment P s1 s2 s1.end_point], ?_, ?_⟩
        · rw [ratingAdder2_eq_finish P s1 s2 hcmp]
        · intro t v1 v2 hPt hv1 hv2
          rw [dualRatingValueAt_cons] at hv1
          by_cases hin : t < s1.end_point
          · rw [if_pos ⟨hPt, hin⟩] at hv1
            rw [ratingValueAt_cons, if_pos ⟨hPt, by omega⟩] at hv2
            rw [dualFullRatingValueAt_cons, if_pos ⟨hPt, hin⟩]
            have hv1' := Option.some.inj hv1
            have hv2' := Option.some.inj hv2
            rw [← hv1', ← hv2']
            congr 1
            unfold RatingAdderIterator2.generate_segment RatingInfo.get_at Rating.add_mul
            simp only []
            ring
          · rw [if_neg (by omega)] at hv1
            unfold dualRatingValueAt ratingValueAt at hv1
            simp at hv1
      | cons r2 rest2' =>
        exfalso
        obtain ⟨L2, hL2, hgeL2⟩ := last_end_exists s2.end_point r2 rest2' hch2
        have h1 : (endPoints ([s1] : List DualSegment)).getLast? = some s1.end_point := by
          simp [endPoints]
        rw [h1, endPoints_getLast_cons_cons s2 r2 rest2', hL2] at hco
        have heq : s1.end_point = L2 := by injection hco
        have hr2 : s2.end_point < r2.end_point := ((WFSegs_cons _ r2 rest2').mp hch2).1
        omega
    | cons r1 rest1' =>
      cases rest2 with
      | nil =>
        exfalso
        obtain ⟨L1, hL1, hgeL1⟩ := last_end_exists s1.end_point r1 rest1' hch1
        have h2 : (endPoints ([s2] : List RatingSegment)).getLast? = some s2.end_point := by
          simp [endPoints]
        rw [h2, endPoints_getLast_cons_cons s1 r1 rest1', hL1] at hco
        have heq : L1 = s2.end_point := by injection hco
        have hr1 : s1.end_point < r1.end_point := ((WFSegs_cons _ r1 rest1').mp hch1).1
        omega
      | cons r2 rest2' =>
        have hwf1' : WFSegs s1.end_point (r1 :: rest1') := hch1
        have hwf2' : WFSegs s1.end_point (r2 :: rest2') := by
          rw [hcmp]
          exact hch2
        have hco' : (endPoints (r1 :: rest1')).getLast? =
            (endPoints (r2 :: rest2')).getLast? := by
          rw [← endPoints_getLast_cons_cons s1 r1 rest1',
            ← endPoints_getLast_cons_cons s2 r2 rest2']
          exact hco
        obtain ⟨out', hout', hval'⟩ := ih (rest1'.length + rest2'.length)
          (by simp at hlen ⊢; omega) rest1' rest2' s1.end_point r1 r2
          (le_refl _) hwf1' hwf2' hco'
        refine ⟨RatingAdderIterator2.generate_segment P s1 s2 s1.end_point :: out', ?_, ?_⟩
        · rw [ratingAdder2_eq_both P s1 r1 s2 r2 rest1' rest2' hcmp, hout']
          rfl
        · intro t v1 v2 hPt hv1 hv2
          rw [dualFullRatingValueAt_cons]
          by_cases hin : t < s1.end_point
          · rw [if_pos ⟨hPt, hin⟩]
            rw [dualRatingValueAt_cons, if_pos ⟨hPt, hin⟩] at hv1
            rw [ratingValueAt_cons, if_pos ⟨hPt, by omega⟩] at hv2
            have hv1' := Option.some.inj hv1
            have hv2' := Option.some.inj hv2
            rw [← hv1', ← hv2']
            congr 1
            unfold RatingAdderIterator2.generate_segment RatingInfo.get_at Rating.add_mul
            simp only []
            ring
          · rw [if_neg (by simp only [RatingAdderIterator2.generate_segment]; omega)]
            rw [dualRatingValueAt_cons, if_neg (by omega)] at hv1
            rw [ratingValueAt_cons, if_neg (by omega), ← hcmp] at hv2
            exact hval' t v1 v2 (by omega) hv1 hv2
  · -- second current segment ends first: pull from iterator 2
    cases rest2 with
    | nil =>
      exfalso
      obtain ⟨L1, hL1, hgeL1⟩ := last_end_exists P s1 rest1 hwf1
      have h2 : (endPoints ([s2] : List RatingSegment)).getLast? = some s2.end_point := by
        simp [endPoints]
      rw [h2, hL1] at hco
      have : L1 = s2.end_point := by injection hco
      omega
    | cons r2 rest2' =>
      have hwf2' : WFSegs s2.end_point (r2 :: rest2') := hch2
      have hwf1' : WFSegs s2.end_point ((s1.advance (s2.end_point - P)) :: rest1) :=
        (WFSegs_cons s2.end_point (s1.advance (s2.end_point - P)) rest1).mpr ⟨hcmp, hch1⟩
      have hco' : (endPoints ((s1.advance (s2.end_point - P)) :: rest1)).getLast? =
          (endPoints (r2 :: rest2')).getLast? := by
        rw [endPoints_dualAdvance_cons]
        rw [← endPoints_getLast_cons_cons s2 r2 rest2']
        exact hco
      obtain ⟨out', hout', hval'⟩ := ih (rest1.length + rest2'.length)
        (by simp at hlen ⊢; omega) rest1 rest2' s2.end_point
        (s1.advance (s2.end_point - P)) r2 (le_refl _) hwf1' hwf2' hco'
      refine ⟨RatingAdderIterator2.generate_segment P s1 s2 s2.end_point :: out', ?_, ?_⟩
      · rw [ratingAdder2_eq_lt2 P s1 s2 r2 rest1 rest2' hcmp, hout']
        rfl
      · intro t v1 v2 hPt hv1 hv2
        rw [dualFullRatingValueAt_cons]
        by_cases hin : t < s2.end_point
        · rw [if_pos ⟨hPt, hin⟩]
          rw [dualRatingValueAt_cons, if_pos ⟨hPt, by omega⟩] at hv1
          rw [ratingValueAt_cons, if_pos ⟨hPt, hin⟩] at hv2
          have hv1' := Option.some.inj hv1
          have hv2' := Option.some.inj hv2
          rw [← hv1', ← hv2']
          congr 1
          unfold RatingAdderIterator2.generate_segment RatingInfo.get_at Rating.add_mul
          simp only []
          ring
        · rw [if_neg (by simp only [RatingAdderIterator2.generate_segment]; omega)]
          rw [ratingValueAt_cons, if_neg (by omega)] at hv2
          have hv1'' : dualRatingValueAt s2.end_point
              ((s1.advance (s2.end_point - P)) :: rest1) t = some v1 := by
            rw [dualRatingValueAt_advance P s2.end_point s1 rest1 (by omega) t (by omega)]
            exact hv1
          exact hval' t v1 v2 (by omega) hv1'' hv2

/-- C4: for a dual signal and a rating signal with identical start, each
with at least one segment and ending simultaneously, `add_ratings_from`
satisfies `(A + B).value_at(t) = A.value_at(t) + B.value_at(t)` at every
point of the common span: each emitted segment extends to the nearer of the
two current segment ends and carries the sum of the start ratings and the
sum of the deltas. -/
theorem C4_add_ratings_pointwise_sum (start : Int) (segs1 : List DualSegment) (segs2 : List RatingSegment)
    (hwf1 : WFSegs start segs1) (hwf2 : WFSegs start segs2)
    (hne1 : segs1 ≠ []) (hne2 : segs2 ≠ [])
    (hco : (endPoints segs1).getLast? = (endPoints segs2).getLast?) :
    ∃ out, add_ratings_from start segs1 segs2 = some out ∧
      ∀ t v1 v2, start ≤ t →
        dualRatingValueAt start segs1 t = some v1 →
        ratingValueAt start segs2 t = some v2 →
        dualFullRatingValueAt out t = some (v1 + v2) := by
  cases segs1 with
  | nil => exact absurd rfl hne1
  | cons s1 rest1 =>
    cases segs2 with
    | nil => exact absurd rfl hne2
    | cons s2 rest2 =>
      obtain ⟨out, hout, hval⟩ := ratingAdder2_spec (rest1.length + rest2.length) rest1 rest2
        start s1 s2 (le_refl _) hwf1 hwf2 hco
      exact ⟨out, hout, hval⟩

/-- C4 witness: two concrete co-terminating signals. -/
theorem C4_add_ratings_pointwise_sum_witness :
    ∃ out, add_ratings_from 0
        [{ end_point := 2, data := { offset_info := { offset := 9, drag := false }, rating_info := { rating := 0, delta := 1 } } },
         { end_point := 4, data := { offset_info := { offset := 9, drag := false }, rating_info := { rating := 5, delta := 0 } } }]
        [{ end_point := 3, data := { rating := 10, delta := 0 } },
         { end_point := 4, data := { rating := 7, delta := 2 } }] = some out ∧
      ∀ t v1 v2, (0 : Int) ≤ t →
        dualRatingValueAt 0
          [{ end_point := 2, data := { offset_info := { offset := 9, drag := false }, rating_info := { rating := 0, delta := 1 } } },
           { end_point := 4, data := { offset_info := { offset := 9, drag := false }, rating_info := { rating := 5, delta := 0 } } }] t = some v1 →
        ratingValueAt 0
          [{ end_point := 3, data := { rating := 10, delta := 0 } },
           { end_point := 4, data := { rating := 7, delta := 2 } }] t = some v2 →
        dualFullRatingValueAt out t = some (v1 + v2) :=
  C4_add_ratings_pointwise_sum 0 _ _ (by decide) (by decide) (by decide) (by decide) (by decide)



theorem fdiv_of_neg_neg : ∀ {x d : Int}, x < 0 → d < 0 → x.fdiv d = (-x).fdiv (-d) := by
  intro x d hx hd
  cases x with
  | ofNat m => exact absurd hx (by exact Int.not_lt.mpr (Int.ofNat_nonneg m))
  | negSucc m =>
    cases d with
    | ofNat n => exact absurd hd (by exact Int.not_lt.mpr (Int.ofNat_nonneg n))
    | negSucc n => rfl

theorem fdiv_bounds_pos {x d : Int} (hd : 0 < d) :
    d * (x.fdiv d) ≤ x ∧ x < d * (x.fdiv d + 1) := by
  rw [Int.fdiv_eq_ediv _ (le_of_lt hd)]
  constructor
  · rw [mul_comm]
    exact Int.ediv_mul_le x (ne_of_gt hd)
  · rw [mul_comm]
    exact Int.lt_ediv_add_one_mul_self x hd

theorem fdiv_bounds_neg {x d : Int} (hx : x < 0) (hd : d < 0) :
    x ≤ d * (x.fdiv d) ∧ d * (x.fdiv d + 1) < x ∧ 0 ≤ x.fdiv d := by
  rw [fdiv_of_neg_neg hx hd]
  have hstep := fdiv_bounds_pos (x := -x) (d := -d) (by omega)
  have hnn : 0 ≤ (-x).fdiv (-d) := Int.fdiv_nonneg (by omega) (by omega)
  refine ⟨by nlinarith [hstep.1], by nlinarith [hstep.2], hnn⟩

theorem lin_nonneg_between {a d L u : Int} (hu0 : 0 ≤ u) (huL : u ≤ L)
    (h0 : 0 ≤ a) (hL : 0 ≤ a + d * L) : 0 ≤ a + d * u := by
  rcases le_or_lt 0 d with hd | hd
  · nlinarith
  · nlinarith

theorem advanced_offset_advanced (oi : OffsetInfo) (l u : Int) :
    (oi.advanced l).advanced_offset u = oi.advanced_offset (l + u) := by
  unfold OffsetInfo.advanced OffsetInfo.advanced_offset
  by_cases h : oi.drag
  · simp [h]
    ring
  · simp [h]

theorem get_at_advanced (ri : RatingInfo) (l u : Int) :
    (ri.advanced l).get_at u = ri.get_at (l + u) := by
  unfold RatingInfo.advanced RatingInfo.get_at Rating.add_mul
  simp only []
  ring

theorem generate_maximum_segments_spec (P E : Int) (s1 s2 : DualSegment) (hPE : P < E) :
    ∃ head stored, generate_maximum_segments P s1 s2 (E - P) E = some (head, stored) ∧
      (∀ (rest : List DualFullSegment) (t : Int), P ≤ t → t < E →
        dualFullRatingValueAt (head :: (stored.toList ++ rest)) t =
          some (max (s1.data.rating_info.get_at (t - P)) (s2.data.rating_info.get_at (t - P))) ∧
        ∃ o, dualFullOffsetValueAt (head :: (stored.toList ++ rest)) t = some o ∧
          (s2.data.rating_info.get_at (t - P) < s1.data.rating_info.get_at (t - P) →
            o = s1.data.offset_info.advanced_offset (t - P)) ∧
          (s1.data.rating_info.get_at (t - P) < s2.data.rating_info.get_at (t - P) →
            o = s2.data.offset_info.advanced_offset (t - P)) ∧
          (o = s1.data.offset_info.advanced_offset (t - P) ∨
           o = s2.data.offset_info.advanced_offset (t - P))) ∧
      (∀ (rest : List DualFullSegment) (t : Int), E ≤ t →
        dualFullRatingValueAt (head :: (stored.toList ++ rest)) t =
          dualFullRatingValueAt rest t ∧
        dualFullOffsetValueAt (head :: (stored.toList ++ rest)) t =
          dualFullOffsetValueAt rest t) := by
  by_cases hc1 : s1.data.rating_info.rating ≥ s2.data.rating_info.rating ∧
      s1.data.rating_info.end_rating (E - P) ≥ s2.data.rating_info.end_rating (E - P)
  · refine ⟨{ span := { start := P, endp := E }, data := s1.data }, none, ?_, ?_, ?_⟩
    · unfold generate_maximum_segments
      simp only []
      rw [if_pos hc1]
    · intro rest t ht htE
      have hle : s2.data.rating_info.get_at (t - P) ≤ s1.data.rating_info.get_at (t - P) := by
        have h1 := hc1.1
        have h2 := hc1.2
        unfold RatingInfo.end_rating Rating.add_mul at h2
        unfold RatingInfo.get_at Rating.add_mul
        have key := lin_nonneg_between
          (a := s1.data.rating_info.rating - s2.data.rating_info.rating)
          (d := s1.data.rating_info.delta - s2.data.rating_info.delta)
          (L := E - P - 1) (u := t - P) (by omega) (by omega) (by omega) (by linarith)
        linarith
      constructor
      · rw [dualFullRatingValueAt_cons]
        simp only [Option.toList, List.nil_append]
        rw [if_pos ⟨ht, htE⟩, max_eq_left hle]
      · refine ⟨s1.data.offset_info.advanced_offset (t - P), ?_, fun _ => rfl,
          fun hlt => absurd hlt (not_lt.mpr hle), Or.inl rfl⟩
        rw [dualFullOffsetValueAt_cons]
        simp only [Option.toList, List.nil_append]
        rw [if_pos ⟨ht, htE⟩]
    · intro rest t ht
      constructor
      · rw [dualFullRatingValueAt_cons]
        simp only [Option.toList, List.nil_append]
        rw [if_neg (show ¬(P ≤ t ∧ t < E) by omega)]
      · rw [dualFullOffsetValueAt_cons]
        simp only [Option.toList, List.nil_append]
        rw [if_neg (show ¬(P ≤ t ∧ t < E) by omega)]
  · by_cases hc2 : s1.data.rating_info.rating ≤ s2.data.rating_info.rating ∧
        s1.data.rating_info.end_rating (E - P) ≤ s2.data.rating_info.end_rating (E - P)
    · refine ⟨{ span := { start := P, endp := E }, data := s2.data }, none, ?_, ?_, ?_⟩
      · unfold generate_maximum_segments
        simp only []
        rw [if_neg hc1, if_pos hc2]
      · intro rest t ht htE
        have hle : s1.data.rating_info.get_at (t - P) ≤ s2.data.rating_info.get_at (t - P) := by
          have h1 := hc2.1
          have h2 := hc2.2
          unfold RatingInfo.end_rating Rating.add_mul at h2
          unfold RatingInfo.get_at Rating.add_mul
          have key := lin_nonneg_between
            (a := s2.data.rating_info.rating - s1.data.rating_info.rating)
            (d := s2.data.rating_info.delta - s1.data.rating_info.delta)
            (L := E - P - 1) (u := t - P) (by omega) (by omega) (by omega) (by linarith)
          linarith
        constructor
        · rw [dualFullRatingValueAt_cons]
          simp only [Option.toList, List.nil_append]
          rw [if_pos ⟨ht, htE⟩, max_eq_right hle]
        · refine ⟨s2.data.offset_info.advanced_offset (t - P), ?_,
            fun hlt => absurd hlt (not_lt.mpr hle), fun _ => rfl, Or.inr rfl⟩
          rw [dualFullOffsetValueAt_cons]
          simp only [Option.toList, List.nil_append]
          rw [if_pos ⟨ht, htE⟩]
      · intro rest t ht
        constructor
        · rw [dualFullRatingValueAt_cons]
          simp only [Option.toList, List.nil_append]
          rw [if_neg (show ¬(P ≤ t ∧ t < E) by omega)]
        · rw [dualFullOffsetValueAt_cons]
          simp only [Option.toList, List.nil_append]
          rw [if_neg (show ¬(P ≤ t ∧ t < E) by omega)]
    · -- crossing case
      have hcross : (s2.data.rating_info.rating < s1.data.rating_info.rating ∧
            s1.data.rating_info.end_rating (E - P) < s2.data.rating_info.end_rating (E - P)) ∨
          (s1.data.rating_info.rating < s2.data.rating_info.rating ∧
            s2.data.rating_info.end_rating (E - P) < s1.data.rating_info.end_rating (E - P)) := by
        omega
      have hL1 : 0 ≤ E - P - 1 := by omega
      rcases hcross with hA | hB
      · -- seg1 starts above and they cross down to seg2
        have hx : s2.data.rating_info.rating - s1.data.rating_info.rating < 0 := by omega
        have herA : (s1.data.rating_info.delta - s2.data.rating_info.delta) * (E - P - 1) <
            s2.data.rating_info.rating - s1.data.rating_info.rating := by
          have h2 := hA.2
          unfold RatingInfo.end_rating Rating.add_mul at h2
          nlinarith
        have hdlt : s1.data.rating_info.delta - s2.data.rating_info.delta < 0 := by
          by_contra hcon
          push_neg at hcon
          have h0 : 0 ≤ (s1.data.rating_info.delta - s2.data.rating_info.delta) * (E - P - 1) :=
            mul_nonneg hcon hL1
          linarith
        obtain ⟨f1, f2, f3⟩ := fdiv_bounds_neg hx hdlt
        have hsp1 : 0 < get_switch_point s1.data.rating_info.rating s2.data.rating_info.rating
            s1.data.rating_info.delta s2.data.rating_info.delta := by
          show 0 < Int.fdiv (s2.data.rating_info.rating - s1.data.rating_info.rating)
            (s1.data.rating_info.delta - s2.data.rating_info.delta) + 1
          omega
        have hsplen : get_switch_point s1.data.rating_info.rating s2.data.rating_info.rating
            s1.data.rating_info.delta s2.data.rating_info.delta < E - P := by
          show Int.fdiv (s2.data.rating_info.rating - s1.data.rating_info.rating)
            (s1.data.rating_info.delta - s2.data.rating_info.delta) + 1 < E - P
          by_contra hcon
          push_neg at hcon
          have hLle : E - P - 1 ≤
              (s2.data.rating_info.rating - s1.data.rating_info.rating).fdiv
                (s1.data.rating_info.delta - s2.data.rating_info.delta) := by omega
          have hmul := mul_le_mul_of_nonpos_left hLle (le_of_lt hdlt)
          linarith
        have hregion1 : ∀ u, P ≤ u →
            u < P + get_switch_point s1.data.rating_info.rating s2.data.rating_info.rating
              s1.data.rating_info.delta s2.data.rating_info.delta →
            s2.data.rating_info.get_at (u - P) ≤ s1.data.rating_info.get_at (u - P) := by
          intro u hu hult
          unfold RatingInfo.get_at Rating.add_mul
          have hu2 : u - P ≤ (s2.data.rating_info.rating - s1.data.rating_info.rating).fdiv
              (s1.data.rating_info.delta - s2.data.rating_info.delta) := by
            have := hult
            rw [show get_switch_point s1.data.rating_info.rating s2.data.rating_info.rating
                s1.data.rating_info.delta s2.data.rating_info.delta =
              Int.fdiv (s2.data.rating_info.rating - s1.data.rating_info.rating)
                (s1.data.rating_info.delta - s2.data.rating_info.delta) + 1 from rfl] at this
            omega
          have hmul := mul_le_mul_of_nonpos_left hu2 (le_of_lt hdlt)
          nlinarith
        have hregion2 : ∀ u,
            P + get_switch_point s1.data.rating_info.rating s2.data.rating_info.rating
              s1.data.rating_info.delta s2.data.rating_info.delta ≤ u →
            s1.data.rating_info.get_at (u - P) < s2.data.rating_info.get_at (u - P) := by
          intro u hu
          unfold RatingInfo.get_at Rating.add_mul
          have hu2 : (s2.data.rating_info.rating - s1.data.rating_info.rating).fdiv
              (s1.data.rating_info.delta - s2.data.rating_info.delta) + 1 ≤ u - P := by
            have := hu
            rw [show get_switch_point s1.data.rating_info.rating s2.data.rating_info.rating
                s1.data.rating_info.delta s2.data.rating_info.delta =
              Int.fdiv (s2.data.rating_info.rating - s1.data.rating_info.rating)
                (s1.data.rating_info.delta - s2.data.rating_info.delta) + 1 from rfl] at this
            omega
          have hmul := mul_le_mul_of_nonpos_left hu2 (le_of_lt hdlt)
          nlinarith
        refine ⟨⟨⟨P, P + get_switch_point s1.data.rating_info.rating s2.data.rating_info.rating
            s1.data.rating_info.delta s2.data.rating_info.delta⟩, s1.data⟩,
          some ⟨⟨P + get_switch_point s1.data.rating_info.rating s2.data.rating_info.rating
            s1.data.rating_info.delta s2.data.rating_info.delta, E⟩,
            s2.data.advanced (get_switch_point s1.data.rating_info.rating
              s2.data.rating_info.rating s1.data.rating_info.delta s2.data.rating_info.delta)⟩,
          ?_, ?_, ?_⟩
        · unfold generate_maximum_segments
          simp only []
          rw [if_neg hc1, if_neg hc2, if_pos ⟨hsp1, hsplen⟩, if_pos ⟨hA.1, hA.2⟩]
        · intro rest t ht htE
          simp only [Option.toList, List.cons_append, List.nil_append]
          by_cases hin : t < P + get_switch_point s1.data.rating_info.rating
              s2.data.rating_info.rating s1.data.rating_info.delta s2.data.rating_info.delta
          · constructor
            · rw [dualFullRatingValueAt_cons, if_pos ⟨ht, hin⟩,
                max_eq_left (hregion1 t ht hin)]
            · refine ⟨s1.data.offset_info.advanced_offset (t - P), ?_, fun _ => rfl,
                fun hlt => absurd hlt (not_lt.mpr (hregion1 t ht hin)), Or.inl rfl⟩
              rw [dualFullOffsetValueAt_cons, if_pos ⟨ht, hin⟩]
          · have hin2 : P + get_switch_point s1.data.rating_info.rating
                s2.data.rating_info.rating s1.data.rating_info.delta
                s2.data.rating_info.delta ≤ t := by omega
            constructor
            · rw [dualFullRatingValueAt_cons, if_neg (show ¬(P ≤ t ∧ t < P + get_switch_point s1.data.rating_info.rating s2.data.rating_info.rating s1.data.rating_info.delta s2.data.rating_info.delta) by omega),
                dualFullRatingValueAt_cons, if_pos ⟨hin2, htE⟩]
              simp only [DualInfo.advanced]
              rw [get_at_advanced]
              rw [show get_switch_point s1.data.rating_info.rating s2.data.rating_info.rating
                  s1.data.rating_info.delta s2.data.rating_info.delta +
                  (t - (P + get_switch_point s1.data.rating_info.rating
                    s2.data.rating_info.rating s1.data.rating_info.delta
                    s2.data.rating_info.delta)) = t - P from by ring]
              rw [max_eq_right (le_of_lt (hregion2 t hin2))]
            · refine ⟨s2.data.offset_info.advanced_offset (t - P), ?_,
                fun hlt => absurd hlt (not_lt.mpr (le_of_lt (hregion2 t hin2))),
                fun _ => rfl, Or.inr rfl⟩
              rw [dualFullOffsetValueAt_cons, if_neg (show ¬(P ≤ t ∧ t < P + get_switch_point s1.data.rating_info.rating s2.data.rating_info.rating s1.data.rating_info.delta s2.data.rating_info.delta) by omega),
                dualFullOffsetValueAt_cons, if_pos ⟨hin2, htE⟩]
              simp only [DualInfo.advanced]
              rw [advanced_offset_advanced]
              rw [show get_switch_point s1.data.rating_info.rating s2.data.rating_info.rating
                  s1.data.rating_info.delta s2.data.rating_info.delta +
                  (t - (P + get_switch_point s1.data.rating_info.rating
                    s2.data.rating_info.rating s1.data.rating_info.delta
                    s2.data.rating_info.delta)) = t - P from by ring]
        · intro rest t ht
          simp only [Option.toList, List.cons_append, List.nil_append]
          constructor
          · rw [dualFullRatingValueAt_cons, if_neg (show ¬(P ≤ t ∧ t < P + get_switch_point s1.data.rating_info.rating s2.data.rating_info.rating s1.data.rating_info.delta s2.data.rating_info.delta) by omega),
              dualFullRatingValueAt_cons, if_neg (show ¬(P + get_switch_point s1.data.rating_info.rating s2.data.rating_info.rating s1.data.rating_info.delta s2.data.rating_info.delta ≤ t ∧ t < E) by omega)]
          · rw [dualFullOffsetValueAt_cons, if_neg (show ¬(P ≤ t ∧ t < P + get_switch_point s1.data.rating_info.rating s2.data.rating_info.rating s1.data.rating_info.delta s2.data.rating_info.delta) by omega),
              dualFullOffsetValueAt_cons, if_neg (show ¬(P + get_switch_point s1.data.rating_info.rating s2.data.rating_info.rating s1.data.rating_info.delta s2.data.rating_info.delta ≤ t ∧ t < E) by omega)]
      · -- seg2 starts above and they cross down to seg1
        have hx : 0 < s2.data.rating_info.rating - s1.data.rating_info.rating := by omega
        have herB : s2.data.rating_info.rating - s1.data.rating_info.rating <
            (s1.data.rating_info.delta - s2.data.rating_info.delta) * (E - P - 1) := by
          have h2 := hB.2
          unfold RatingInfo.end_rating Rating.add_mul at h2
          nlinarith
        have hdlt : 0 < s1.data.rating_info.delta - s2.data.rating_info.delta := by
          by_contra hcon
          push_neg at hcon
          have h0 : (s1.data.rating_info.delta - s2.data.rating_info.delta) * (E - P - 1) ≤ 0 :=
            mul_nonpos_of_nonpos_of_nonneg hcon hL1
          linarith
        obtain ⟨f1, f2⟩ := fdiv_bounds_pos (x := s2.data.rating_info.rating -
          s1.data.rating_info.rating) hdlt
        have f3 : 0 ≤ (s2.data.rating_info.rating - s1.data.rating_info.rating).fdiv
            (s1.data.rating_info.delta - s2.data.rating_info.delta) :=
          Int.fdiv_nonneg (le_of_lt hx) (le_of_lt hdlt)
        have hsp1 : 0 < get_switch_point s1.data.rating_info.rating s2.data.rating_info.rating
            s1.data.rating_info.delta s2.data.rating_info.delta := by
          show 0 < Int.fdiv (s2.data.rating_info.rating - s1.data.rating_info.rating)
            (s1.data.rating_info.delta - s2.data.rating_info.delta) + 1
          omega
        have hsplen : get_switch_point s1.data.rating_info.rating s2.data.rating_info.rating
            s1.data.rating_info.delta s2.data.rating_info.delta < E - P := by
          show Int.fdiv (s2.data.rating_info.rating - s1.data.rating_info.rating)
            (s1.data.rating_info.delta - s2.data.rating_info.delta) + 1 < E - P
          by_contra hcon
          push_neg at hcon
          have hLle : (s2.data.rating_info.rating - s1.data.rating_info.rating).fdiv
              (s1.data.rating_info.delta - s2.data.rating_info.delta) ≥ E - P - 1 := by omega
          have hmul := mul_le_mul_of_nonneg_left hLle (le_of_lt hdlt)
          linarith
        have hregion1 : ∀ u, P ≤ u →
            u < P + get_switch_point s1.data.rating_info.rating s2.data.rating_info.rating
              s1.data.rating_info.delta s2.data.rating_info.delta →
            s1.data.rating_info.get_at (u - P) ≤ s2.data.rating_info.get_at (u - P) := by
          intro u hu hult
          unfold RatingInfo.get_at Rating.add_mul
          have hu2 : u - P ≤ (s2.data.rating_info.rating - s1.data.rating_info.rating).fdiv
              (s1.data.rating_info.delta - s2.data.rating_info.delta) := by
            have := hult
            rw [show get_switch_point s1.data.rating_info.rating s2.data.rating_info.rating
                s1.data.rating_info.delta s2.data.rating_info.delta =
              Int.fdiv (s2.data.rating_info.rating - s1.data.rating_info.rating)
                (s1.data.rating_info.delta - s2.data.rating_info.delta) + 1 from rfl] at this
            omega
          have hmul := mul_le_mul_of_nonneg_left hu2 (le_of_lt hdlt)
          nlinarith
        have hregion2 : ∀ u,
            P + get_switch_point s1.data.rating_info.rating s2.data.rating_info.rating
              s1.data.rating_info.delta s2.data.rating_info.delta ≤ u →
            s2.data.rating_info.get_at (u - P) < s1.data.rating_info.get_at (u - P) := by
          intro u hu
          unfold RatingInfo.get_at Rating.add_mul
          have hu2 : (s2.data.rating_info.rating - s1.data.rating_info.rating).fdiv
              (s1.data.rating_info.delta - s2.data.rating_info.delta) + 1 ≤ u - P := by
            have := hu
            rw [show get_switch_point s1.data.rating_info.rating s2.data.rating_info.rating
                s1.data.rating_info.delta s2.data.rating_info.delta =
              Int.fdiv (s2.data.rating_info.rating - s1.data.rating_info.rating)
                (s1.data.rating_info.delta - s2.data.rating_info.delta) + 1 from rfl] at this
            omega
          have hmul := mul_le_mul_of_nonneg_left hu2 (le_of_lt hdlt)
          nlinarith
        refine ⟨⟨⟨P, P + get_switch_point s1.data.rating_info.rating s2.data.rating_info.rating
            s1.data.rating_info.delta s2.data.rating_info.delta⟩, s2.data⟩,
          some ⟨⟨P + get_switch_point s1.data.rating_info.rating s2.data.rating_info.rating
            s1.data.rating_info.delta s2.data.rating_info.delta, E⟩,
            s1.data.advanced (get_switch_point s1.data.rating_info.rating
              s2.data.rating_info.rating s1.data.rating_info.delta s2.data.rating_info.delta)⟩,
          ?_, ?_, ?_⟩
        · unfold generate_maximum_segments
          simp only []
          rw [if_neg hc1, if_neg hc2, if_pos ⟨hsp1, hsplen⟩, if_neg (by omega)]
        · intro rest t ht htE
          simp only [Option.toList, List.cons_append, List.nil_append]
          by_cases hin : t < P + get_switch_point s1.data.rating_info.rating
              s2.data.rating_info.rating s1.data.rating_info.delta s2.data.rating_info.delta
          · constructor
            · rw [dualFullRatingValueAt_cons, if_pos ⟨ht, hin⟩,
                max_eq_right (hregion1 t ht hin)]
            · refine ⟨s2.data.offset_info.advanced_offset (t - P), ?_,
                fun hlt => absurd hlt (not_lt.mpr (hregion1 t ht hin)),
                fun _ => rfl, Or.inr rfl⟩
              rw [dualFullOffsetValueAt_cons, if_pos ⟨ht, hin⟩]
          · have hin2 : P + get_switch_point s1.data.rating_info.rating
                s2.data.rating_info.rating s1.data.rating_info.delta
                s2.data.rating_info.delta ≤ t := by omega
            constructor
            · rw [dualFullRatingValueAt_cons, if_neg (show ¬(P ≤ t ∧ t < P + get_switch_point s1.data.rating_info.rating s2.data.rating_info.rating s1.data.rating_info.delta s2.data.rating_info.delta) by omega),
                dualFullRatingValueAt_cons, if_pos ⟨hin2, htE⟩]
              simp only [DualInfo.advanced]
              rw [get_at_advanced]
              rw [show get_switch_point s1.data.rating_info.rating s2.data.rating_info.rating
                  s1.data.rating_info.delta s2.data.rating_info.delta +
                  (t - (P + get_switch_point s1.data.rating_info.rating
                    s2.data.rating_info.rating s1.data.rating_info.delta
                    s2.data.rating_info.delta)) = t - P from by ring]
              rw [max_eq_left (le_of_lt (hregion2 t hin2))]
            · refine ⟨s1.data.offset_info.advanced_offset (t - P), ?_, fun _ => rfl,
                fun hlt => absurd hlt (not_lt.mpr (le_of_lt (hregion2 t hin2))), Or.inl rfl⟩
              rw [dualFullOffsetValueAt_cons, if_neg (show ¬(P ≤ t ∧ t < P + get_switch_point s1.data.rating_info.rating s2.data.rating_info.rating s1.data.rating_info.delta s2.data.rating_info.delta) by omega),
                dualFullOffsetValueAt_cons, if_pos ⟨hin2, htE⟩]
              simp only [DualInfo.advanced]
              rw [advanced_offset_advanced]
              rw [show get_switch_point s1.data.rating_info.rating s2.data.rating_info.rating
                  s1.data.rating_info.delta s2.data.rating_info.delta +
                  (t - (P + get_switch_point s1.data.rating_info.rating
                    s2.data.rating_info.rating s1.data.rating_info.delta
                    s2.data.rating_info.delta)) = t - P from by ring]
        · intro rest t ht
          simp only [Option.toList, List.cons_append, List.nil_append]
          constructor
          · rw [dualFullRatingValueAt_cons, if_neg (show ¬(P ≤ t ∧ t < P + get_switch_point s1.data.rating_info.rating s2.data.rating_info.rating s1.data.rating_info.delta s2.data.rating_info.delta) by omega),
              dualFullRatingValueAt_cons, if_neg (show ¬(P + get_switch_point s1.data.rating_info.rating s2.data.rating_info.rating s1.data.rating_info.delta s2.data.rating_info.delta ≤ t ∧ t < E) by omega)]
          · rw [dualFullOffsetValueAt_cons, if_neg (show ¬(P ≤ t ∧ t < P + get_switch_point s1.data.rating_info.rating s2.data.rating_info.rating s1.data.rating_info.delta s2.data.rating_info.delta) by omega),
              dualFullOffsetValueAt_cons, if_neg (show ¬(P + get_switch_point s1.data.rating_info.rating s2.data.rating_info.rating s1.data.rating_info.delta s2.data.rating_info.delta ≤ t ∧ t < E) by omega)]

theorem dualOffsetValueAt_advance (P Pn : Int) (s1 : DualSegment) (rest : List DualSegment)
    (hP : P ≤ Pn) :
    ∀ t, Pn ≤ t →
    dualOffsetValueAt Pn ((s1.advance (Pn - P)) :: rest) t = dualOffsetValueAt P (s1 :: rest) t := by
  intro t ht
  unfold dualOffsetValueAt
  rw [List.map_cons, List.map_cons, offsetValueAt, offsetValueAt]
  have hend : (DualSegment.as_offset_segment (s1.advance (Pn - P))).end_point = s1.end_point := rfl
  rw [hend]
  simp only [DualSegment.as_offset_segment]
  by_cases h : t < s1.end_point
  · rw [if_pos ⟨ht, h⟩, if_pos ⟨by omega, h⟩]
    have h2 := advanced_offset_advanced s1.data.offset_info (Pn - P) (t - Pn)
    rw [show Pn - P + (t - Pn) = t - P by ring] at h2
    exact congrArg some h2
  · rw [if_neg (by omega), if_neg (by omega)]

theorem combinedMaximumGo_eq_lt1 (P : Int) (s1 s2 r1 : DualSegment)
    (rest1 rest2 : List DualSegment) (head : DualFullSegment)
    (stored : Option DualFullSegment)
    (h0 : P < s1.end_point ∧ P < s2.end_point) (h : s1.end_point < s2.end_point)
    (hgen : generate_maximum_segments P s1 s2 (s1.end_point - P) s1.end_point =
      some (head, stored)) :
    combinedMaximumGo P s1 s2 (r1 :: rest1) rest2 =
      (combinedMaximumGo s1.end_point r1 (s2.advance (s1.end_point - P)) rest1 rest2).map
        (fun out => head :: (stored.toList ++ out)) := by
  rw [combinedMaximumGo.eq_def]
  simp only []
  rw [if_pos h0, if_pos h]
  rw [hgen]
  rfl

theorem combinedMaximumGo_eq_lt2 (P : Int) (s1 s2 r2 : DualSegment)
    (rest1 rest2 : List DualSegment) (head : DualFullSegment)
    (stored : Option DualFullSegment)
    (h0 : P < s1.end_point ∧ P < s2.end_point) (h : s2.end_point < s1.end_point)
    (hgen : generate_maximum_segments P s1 s2 (s2.end_point - P) s2.end_point =
      some (head, stored)) :
    combinedMaximumGo P s1 s2 rest1 (r2 :: rest2) =
      (combinedMaximumGo s2.end_point (s1.advance (s2.end_point - P)) r2 rest1 rest2).map
        (fun out => head :: (stored.toList ++ out)) := by
  rw [combinedMaximumGo.eq_def]
  simp only []
  rw [if_pos h0, if_neg (by omega), if_pos h]
  rw [hgen]
  rfl

theorem combinedMaximumGo_eq_both (P : Int) (s1 s2 r1 r2 : DualSegment)
    (rest1 rest2 : List DualSegment) (head : DualFullSegment)
    (stored : Option DualFullSegment)
    (h0 : P < s1.end_point ∧ P < s2.end_point) (h : s1.end_point = s2.end_point)
    (hgen : generate_maximum_segments P s1 s2 (s1.end_point - P) s1.end_point =
      some (head, stored)) :
    combinedMaximumGo P s1 s2 (r1 :: rest1) (r2 :: rest2) =
      (combinedMaximumGo s1.end_point r1 r2 rest1 rest2).map
        (fun out => head :: (stored.toList ++ out)) := by
  rw [combinedMaximumGo.eq_def]
  simp only []
  rw [if_pos h0, if_neg (by omega), if_neg (by omega)]
  rw [hgen]
  rfl

theorem combinedMaximumGo_eq_finish (P : Int) (s1 s2 : DualSegment)
    (head : DualFullSegment) (stored : Option DualFullSegment)
    (h0 : P < s1.end_point ∧ P < s2.end_point) (h : s1.end_point = s2.end_point)
    (hgen : generate_maximum_segments P s1 s2 (s1.end_point - P) s1.end_point =
      some (head, stored)) :
    combinedMaximumGo P s1 s2 [] [] = some (head :: stored.toList) := by
  rw [combinedMaximumGo.eq_def]
  simp only []
  rw [if_pos h0, if_neg (by omega), if_neg (by omega)]
  rw [hgen]
  rfl

theorem combinedMaximumGo_spec (n : Nat) :
    ∀ (rest1 rest2 : List DualSegment) (P : Int) (s1 s2 : DualSegment),
    rest1.length + rest2.length ≤ n →
    WFSegs P (s1 :: rest1) → WFSegs P (s2 :: rest2) →
    (endPoints (s1 :: rest1)).getLast? = (endPoints (s2 :: rest2)).getLast? →
    ∃ out, combinedMaximumGo P s1 s2 rest1 rest2 = some out ∧
      ∀ t v1 v2, P ≤ t →
        dualRatingValueAt P (s1 :: rest1) t = some v1 →
        dualRatingValueAt P (s2 :: rest2) t = some v2 →
        dualFullRatingValueAt out t = some (max v1 v2) ∧
        ∃ o, dualFullOffsetValueAt out t = some o ∧
          (v2 < v1 → dualOffsetValueAt P (s1 :: rest1) t = some o) ∧
          (v1 < v2 → dualOffsetValueAt P (s2 :: rest2) t = some o) ∧
          (dualOffsetValueAt P (s1 :: rest1) t = some o ∨
           dualOffsetValueAt P (s2 :: rest2) t = some o) := by
  induction n using Nat.strong_induction_on with
  | _ n ih =>
  intro rest1 rest2 P s1 s2 hlen hwf1 hwf2 hco
  obtain ⟨hP1, hch1⟩ := (WFSegs_cons P s1 rest1).mp hwf1
  obtain ⟨hP2, hch2⟩ := (WFSegs_cons P s2 rest2).mp hwf2
  rcases lt_trichotomy s1.end_point s2.end_point with hcmp | hcmp | hcmp
  · -- first current segment ends first: pull from iterator 1
    cases rest1 with
    | nil =>
      exfalso
      obtain ⟨L2, hL2, hgeL2⟩ := last_end_exists P s2 rest2 hwf2
      have h1 : (endPoints ([s1] : List DualSegment)).getLast? = some s1.end_point := by
        simp [endPoints]
      rw [h1, hL2] at hco
      have : s1.end_point = L2 := by injection hco
      omega
    | cons r1 rest1' =>
      obtain ⟨head, stored, hgen, hIn, hSkip⟩ :=
        generate_maximum_segments_spec P s1.end_point s1 s2 hP1
      have hwf1' : WFSegs s1.end_point (r1 :: rest1') := hch1
      have hwf2' : WFSegs s1.end_point ((s2.advance (s1.end_point - P)) :: rest2) :=
        (WFSegs_cons s1.end_point (s2.advance (s1.end_point - P)) rest2).mpr ⟨hcmp, hch2⟩
      have hco' : (endPoints (r1 :: rest1')).getLast? =
          (endPoints ((s2.advance (s1.end_point - P)) :: rest2)).getLast? := by
        rw [endPoints_dualAdvance_cons]
        rw [← endPoints_getLast_cons_cons s1 r1 rest1']
        exact hco
      obtain ⟨out', hout', hval'⟩ := ih (rest1'.length + rest2.length)
        (by simp at hlen ⊢; omega) rest1' rest2 s1.end_point r1
        (s2.advance (s1.end_point - P)) (le_refl _) hwf1' hwf2' hco'
      refine ⟨head :: (stored.toList ++ out'), ?_, ?_⟩
      · rw [combinedMaximumGo_eq_lt1 P s1 s2 r1 rest1' rest2 head stored
          ⟨hP1, hP2⟩ hcmp hgen, hout']
        rfl
      · intro t v1 v2 hPt hv1 hv2
        by_cases hin : t < s1.end_point
        · rw [dualRatingValueAt_cons, if_pos ⟨hPt, hin⟩] at hv1
          rw [dualRatingValueAt_cons, if_pos ⟨hPt, by omega⟩] at hv2
          have hg1 := Option.some.inj hv1
          have hg2 := Option.some.inj hv2
          obtain ⟨hrat, o, ho, hw1, hw2, hdisj⟩ := hIn out' t hPt hin
          refine ⟨?_, o, ho, ?_, ?_, ?_⟩
          · rw [← hg1, ← hg2]
            exact hrat
          · intro hlt
            rw [← hg1, ← hg2] at hlt
            rw [dualOffsetValueAt_cons, if_pos ⟨hPt, hin⟩, hw1 hlt]
          · intro hlt
            rw [← hg1, ← hg2] at hlt
            rw [dualOffsetValueAt_cons, if_pos ⟨hPt, by omega⟩, hw2 hlt]
          · rcases hdisj with hd | hd
            · left
              rw [dualOffsetValueAt_cons, if_pos ⟨hPt, hin⟩, hd]
            · right
              rw [dualOffsetValueAt_cons, if_pos ⟨hPt, by omega⟩, hd]
        · have hskip := hSkip out' t (by omega)
          have heq1r : dualRatingValueAt P (s1 :: r1 :: rest1') t =
              dualRatingValueAt s1.end_point (r1 :: rest1') t := by
            rw [dualRatingValueAt_cons, if_neg (by omega)]
          have heq1o : dualOffsetValueAt P (s1 :: r1 :: rest1') t =
              dualOffsetValueAt s1.end_point (r1 :: rest1') t := by
            rw [dualOffsetValueAt_cons, if_neg (by omega)]
          have heq2r : dualRatingValueAt s1.end_point
              ((s2.advance (s1.end_point - P)) :: rest2) t =
              dualRatingValueAt P (s2 :: rest2) t :=
            dualRatingValueAt_advance P s1.end_point s2 rest2 (by omega) t (by omega)
          have heq2o : dualOffsetValueAt s1.end_point
              ((s2.advance (s1.end_point - P)) :: rest2) t =
              dualOffsetValueAt P (s2 :: rest2) t :=
            dualOffsetValueAt_advance P s1.end_point s2 rest2 (by omega) t (by omega)
          rw [heq1r] at hv1
          rw [← heq2r] at hv2
          obtain ⟨hrat, o, ho, hw1, hw2, hdisj⟩ := hval' t v1 v2 (by omega) hv1 hv2
          refine ⟨?_, o, ?_, ?_, ?_, ?_⟩
          · rw [hskip.1]
            exact hrat
          · rw [hskip.2]
            exact ho
          · intro hlt
            rw [heq1o]
            exact hw1 hlt
          · intro hlt
            rw [← heq2o]
            exact hw2 hlt
          · rcases hdisj with hd | hd
            · left
              rw [heq1o]
              exact hd
            · right
              rw [← heq2o]
              exact hd
  · -- equal end points
    cases rest1 with
    | nil =>
      cases rest2 with
      | nil =>
        obtain ⟨head, stored, hgen, hIn, hSkip⟩ :=
          generate_maximum_segments_spec P s1.end_point s1 s2 hP1
        refine ⟨head :: stored.toList, ?_, ?_⟩
        · exact combinedMaximumGo_eq_finish P s1 s2 head stored ⟨hP1, hP2⟩ hcmp hgen
        · intro t v1 v2 hPt hv1 hv2
          by_cases hin : t < s1.end_point
          · rw [dualRatingValueAt_cons, if_pos ⟨hPt, hin⟩] at hv1
            rw [dualRatingValueAt_cons, if_pos ⟨hPt, by omega⟩] at hv2
            have hg1 := Option.some.inj hv1
            have hg2 := Option.some.inj hv2
            obtain ⟨hrat, o, ho, hw1, hw2, hdisj⟩ := hIn [] t hPt hin
            rw [List.append_nil] at hrat ho
            refine ⟨?_, o, ho, ?_, ?_, ?_⟩
            · rw [← hg1, ← hg2]
              exact hrat
            · intro hlt
              rw [← hg1, ← hg2] at hlt
              rw [dualOffsetValueAt_cons, if_pos ⟨hPt, hin⟩, hw1 hlt]
            · intro hlt
              rw [← hg1, ← hg2] at hlt
              rw [dualOffsetValueAt_cons, if_pos ⟨hPt, by omega⟩, hw2 hlt]
            · rcases hdisj with hd | hd
              · left
                rw [dualOffsetValueAt_cons, if_pos ⟨hPt, hin⟩, hd]
              · right
                rw [dualOffsetValueAt_cons, if_pos ⟨hPt, by omega⟩, hd]
          · rw [dualRatingValueAt_cons, if_neg (by omega)] at hv1
            unfold dualRatingValueAt ratingValueAt at hv1
            simp at hv1
      | cons r2 rest2' =>
        exfalso
        obtain ⟨L2, hL2, hgeL2⟩ := last_end_exists s2.end_point r2 rest2' hch2
        have h1 : (endPoints ([s1] : List DualSegment)).getLast? = some s1.end_point := by
          simp [endPoints]
        rw [h1, endPoints_getLast_cons_cons s2 r2 rest2', hL2] at hco
        have heq : s1.end_point = L2 := by injection hco
        have hr2 : s2.end_point < r2.end_point := ((WFSegs_cons _ r2 rest2').mp hch2).1
        omega
    | cons r1 rest1' =>
      cases rest2 with
      | nil =>
        exfalso
        obtain ⟨L1, hL1, hgeL1⟩ := last_end_exists s1.end_point r1 rest1' hch1
        have h2 : (endPoints ([s2] : List DualSegment)).getLast? = some s2.end_point := by
          simp [endPoints]
        rw [h2, endPoints_getLast_cons_cons s1 r1 rest1', hL1] at hco
        have heq : L1 = s2.end_point := by injection hco
        have hr1 : s1.end_point < r1.end_point := ((WFSegs_cons _ r1 rest1').mp hch1).1
        omega
      | cons r2 rest2' =>
        obtain ⟨head, stored, hgen, hIn, hSkip⟩ :=
          generate_maximum_segments_spec P s1.end_point s1 s2 hP1
        have hwf1' : WFSegs s1.end_point (r1 :: rest1') := hch1
        have hwf2' : WFSegs s1.end_point (r2 :: rest2') := by
          rw [hcmp]
          exact hch2
        have hco' : (endPoints (r1 :: rest1')).getLast? =
            (endPoints (r2 :: rest2')).getLast? := by
          rw [← endPoints_getLast_cons_cons s1 r1 rest1',
            ← endPoints_getLast_cons_cons s2 r2 rest2']
          exact hco
        obtain ⟨out', hout', hval'⟩ := ih (rest1'.length + rest2'.length)
          (by simp at hlen ⊢; omega) rest1' rest2' s1.end_point r1 r2
          (le_refl _) hwf1' hwf2' hco'
        refine ⟨head :: (stored.toList ++ out'), ?_, ?_⟩
        · rw [combinedMaximumGo_eq_both P s1 s2 r1 r2 rest1' rest2' head stored
            ⟨hP1, hP2⟩ hcmp hgen, hout']
          rfl
        · intro t v1 v2 hPt hv1 hv2
          by_cases hin : t < s1.end_point
          · rw [dualRatingValueAt_cons, if_pos ⟨hPt, hin⟩] at hv1
            rw [dualRatingValueAt_cons, if_pos ⟨hPt, by omega⟩] at hv2
            have hg1 := Option.some.inj hv1
            have hg2 := Option.some.inj hv2
            obtain ⟨hrat, o, ho, hw1, hw2, hdisj⟩ := hIn out' t hPt hin
            refine ⟨?_, o, ho, ?_, ?_, ?_⟩
            · rw [← hg1, ← hg2]
              exact hrat
            · intro hlt
              rw [← hg1, ← hg2] at hlt
              rw [dualOffsetValueAt_cons, if_pos ⟨hPt, hin⟩, hw1 hlt]
            · intro hlt
              rw [← hg1, ← hg2] at hlt
              rw [dualOffsetValueAt_cons, if_pos ⟨hPt, by omega⟩, hw2 hlt]
            · rcases hdisj with hd | hd
              · left
                rw [dualOffsetValueAt_cons, if_pos ⟨hPt, hin⟩, hd]
              · right
                rw [dualOffsetValueAt_cons, if_pos ⟨hPt, by omega⟩, hd]
          · have hskip := hSkip out' t (by omega)
            have heq1r : dualRatingValueAt P (s1 :: r1 :: rest1') t =
                dualRatingValueAt s1.end_point (r1 :: rest1') t := by
              rw [dualRatingValueAt_cons, if_neg (by omega)]
            have heq1o : dualOffsetValueAt P (s1 :: r1 :: rest1') t =
                dualOffsetValueAt s1.end_point (r1 :: rest1') t := by
              rw [dualOffsetValueAt_cons, if_neg (by omega)]
            have heq2r : dualRatingValueAt P (s2 :: r2 :: rest2') t =
                dualRatingValueAt s1.end_point (r2 :: rest2') t := by
              rw [dualRatingValueAt_cons, if_neg (by omega), hcmp]
            have heq2o : dualOffsetValueAt P (s2 :: r2 :: rest2') t =
                dualOffsetValueAt s1.end_point (r2 :: rest2') t := by
              rw [dualOffsetValueAt_cons, if_neg (by omega), hcmp]
            rw [heq1r] at hv1
            rw [heq2r] at hv2
            obtain ⟨hrat, o, ho, hw1, hw2, hdisj⟩ := hval' t v1 v2 (by omega) hv1 hv2
            refine ⟨?_, o, ?_, ?_, ?_, ?_⟩
            · rw [hskip.1]
              exact hrat
            · rw [hskip.2]
              exact ho
            · intro hlt
              rw [heq1o]
              exact hw1 hlt
            · intro hlt
              rw [heq2o]
              exact hw2 hlt
            · rcases hdisj with hd | hd
              · left
                rw [heq1o]
                exact hd
              · right
                rw [heq2o]
                exact hd
  · -- second current segment ends first: pull from iterator 2
    cases rest2 with
    | nil =>
      exfalso
      obtain ⟨L1, hL1, hgeL1⟩ := last_end_exists P s1 rest1 hwf1
      have h2 : (endPoints ([s2] : List DualSegment)).getLast? = some s2.end_point := by
        simp [endPoints]
      rw [h2, hL1] at hco
      have : L1 = s2.end_point := by injection hco
      omega
    | cons r2 rest2' =>
      obtain ⟨head, stored, hgen, hIn, hSkip⟩ :=
        generate_maximum_segments_spec P s2.end_point s1 s2 hP2
      have hwf2' : WFSegs s2.end_point (r2 :: rest2') := hch2
      have hwf1' : WFSegs s2.end_point ((s1.advance (s2.end_point - P)) :: rest1) :=
        (WFSegs_cons s2.end_point (s1.advance (s2.end_point - P)) rest1).mpr ⟨hcmp, hch1⟩
      have hco' : (endPoints ((s1.advance (s2.end_point - P)) :: rest1)).getLast? =
          (endPoints (r2 :: rest2')).getLast? := by
        rw [endPoints_dualAdvance_cons]
        rw [← endPoints_getLast_cons_cons s2 r2 rest2']
        exact hco
      obtain ⟨out', hout', hval'⟩ := ih (rest1.length + rest2'.length)
        (by simp at hlen ⊢; omega) rest1 rest2' s2.end_point
        (s1.advance (s2.end_point - P)) r2 (le_refl _) hwf1' hwf2' hco'
      refine ⟨head :: (stored.toList ++ out'), ?_, ?_⟩
      · rw [combinedMaximumGo_eq_lt2 P s1 s2 r2 rest1 rest2' head stored
          ⟨hP1, hP2⟩ hcmp hgen, hout']
        rfl
      · intro t v1 v2 hPt hv1 hv2
        by_cases hin : t < s2.end_point
        · rw [dualRatingValueAt_cons, if_pos ⟨hPt, by omega⟩] at hv1
          rw [dualRatingValueAt_cons, if_pos ⟨hPt, hin⟩] at hv2
          have hg1 := Option.some.inj hv1
          have hg2 := Option.some.inj hv2
          obtain ⟨hrat, o, ho, hw1, hw2, hdisj⟩ := hIn out' t hPt hin
          refine ⟨?_, o, ho, ?_, ?_, ?_⟩
          · rw [← hg1, ← hg2]
            exact hrat
          · intro hlt
            rw [← hg1, ← hg2] at hlt
            rw [dualOffsetValueAt_cons, if_pos ⟨hPt, by omega⟩, hw1 hlt]
          · intro hlt
            rw [← hg1, ← hg2] at hlt
            rw [dualOffsetValueAt_cons, if_pos ⟨hPt, hin⟩, hw2 hlt]
          · rcases hdisj with hd | hd
            · left
              rw [dualOffsetValueAt_cons, if_pos ⟨hPt, by omega⟩, hd]
            · right
              rw [dualOffsetValueAt_cons, if_pos ⟨hPt, hin⟩, hd]
        · have hskip := hSkip out' t (by omega)
          have heq2r : dualRatingValueAt P (s2 :: r2 :: rest2') t =
              dualRatingValueAt s2.end_point (r2 :: rest2') t := by
            rw [dualRatingValueAt_cons, if_neg (by omega)]
          have heq2o : dualOffsetValueAt P (s2 :: r2 :: rest2') t =
              dualOffsetValueAt s2.end_point (r2 :: rest2') t := by
            rw [dualOffsetValueAt_cons, if_neg (by omega)]
          have heq1r : dualRatingValueAt s2.end_point
              ((s1.advance (s2.end_point - P)) :: rest1) t =
              dualRatingValueAt P (s1 :: rest1) t :=
            dualRatingValueAt_advance P s2.end_point s1 rest1 (by omega) t (by omega)
          have heq1o : dualOffsetValueAt s2.end_point
              ((s1.advance (s2.end_point - P)) :: rest1) t =
              dualOffsetValueAt P (s1 :: rest1) t :=
            dualOffsetValueAt_advance P s2.end_point s1 rest1 (by omega) t (by omega)
          rw [← heq1r] at hv1
          rw [heq2r] at hv2
          obtain ⟨hrat, o, ho, hw1, hw2, hdisj⟩ := hval' t v1 v2 (by omega) hv1 hv2
          refine ⟨?_, o, ?_, ?_, ?_, ?_⟩
          · rw [hskip.1]
            exact hrat
          · rw [hskip.2]
            exact ho
          · intro hlt
            rw [← heq1o]
            exact hw1 hlt
          · intro hlt
            rw [heq2o]
            exact hw2 hlt
          · rcases hdisj with hd | hd
            · left
              rw [← heq1o]
              exact hd
            · right
              rw [heq2o]
              exact hd

/-- C3 (corrected): for two well-formed dual signals with the same start that
end simultaneously, `combined_maximum_of_dual_iterators` succeeds and at
every point of the common span its rating is the pointwise maximum of the two
input ratings; where one rating strictly exceeds the other, the carried
offset is the strict winner's offset; where the ratings tie, the carried
offset is one of the two sides' offsets (the piece-dominant side's, not
necessarily the first iterator's). -/
theorem C3_combined_maximum_amended (start : Int) (segs1 segs2 : List DualSegment)
    (hwf1 : WFSegs start segs1) (hwf2 : WFSegs start segs2)
    (hne1 : segs1 ≠ []) (hne2 : segs2 ≠ [])
    (hco : (endPoints segs1).getLast? = (endPoints segs2).getLast?) :
    ∃ out, combined_maximum_of_dual_iterators start segs1 segs2 = some out ∧
      ∀ t v1 v2, start ≤ t →
        dualRatingValueAt start segs1 t = some v1 →
        dualRatingValueAt start segs2 t = some v2 →
        dualFullRatingValueAt out t = some (max v1 v2) ∧
        ∃ o, dualFullOffsetValueAt out t = some o ∧
          (v2 < v1 → dualOffsetValueAt start segs1 t = some o) ∧
          (v1 < v2 → dualOffsetValueAt start segs2 t = some o) ∧
          (dualOffsetValueAt start segs1 t = some o ∨
           dualOffsetValueAt start segs2 t = some o) := by
  cases segs1 with
  | nil => exact absurd rfl hne1
  | cons s1 rest1 =>
    cases segs2 with
    | nil => exact absurd rfl hne2
    | cons s2 rest2 =>
      exact combinedMaximumGo_spec (rest1.length + rest2.length) rest1 rest2 start s1 s2
        (le_refl _) hwf1 hwf2 hco

/-- C3 counterexample to the tie-breaking sentence: two signals whose ratings
tie at `t = 0` (first constant `0`, second `0` with slope `1`), where the
output carries the SECOND iterator's offset (`200`), not the first's
(`100`): the code compares whole segments (start and end ratings), not
points, so at a tie point the piece-dominant side wins, not iterator 1. -/
theorem C3_tie_prefers_piecewise_winner_counterexample :
    ∃ out, combined_maximum_of_dual_iterators 0
        [{ end_point := 2, data := { offset_info := { offset := 100, drag := false },
                                     rating_info := { rating := 0, delta := 0 } } }]
        [{ end_point := 2, data := { offset_info := { offset := 200, drag := false },
                                     rating_info := { rating := 0, delta := 1 } } }] = some out ∧
      dualRatingValueAt 0
        [{ end_point := 2, data := { offset_info := { offset := 100, drag := false },
                                     rating_info := { rating := 0, delta := 0 } } }] 0 = some 0 ∧
      dualRatingValueAt 0
        [{ end_point := 2, data := { offset_info := { offset := 200, drag := false },
                                     rating_info := { rating := 0, delta := 1 } } }] 0 = some 0 ∧
      dualFullOffsetValueAt out 0 = some 200 ∧
      dualOffsetValueAt 0
        [{ end_point := 2, data := { offset_info := { offset := 100, drag := false },
                                     rating_info := { rating := 0, delta := 0 } } }] 0 =
        some 100 := by
  refine ⟨[{ span := { start := 0, endp := 2 },
             data := { offset_info := { offset := 200, drag := false },
                       rating_info := { rating := 0, delta := 1 } } }],
          ?_, by decide, by decide, by decide, by decide⟩
  exact combinedMaximumGo_eq_finish 0
    { end_point := 2, data := { offset_info := { offset := 100, drag := false },
                                rating_info := { rating := 0, delta := 0 } } }
    { end_point := 2, data := { offset_info := { offset := 200, drag := false },
                                rating_info := { rating := 0, delta := 1 } } }
    { span := { start := 0, endp := 2 },
      data := { offset_info := { offset := 200, drag := false },
                rating_info := { rating := 0, delta := 1 } } }
    none ⟨by decide, by decide⟩ (by decide) (by decide)

/-- C3 witness: two concrete crossing co-terminating signals. -/
theorem C3_combined_maximum_amended_witness :
    ∃ out, combined_maximum_of_dual_iterators 0
        [{ end_point := 4, data := { offset_info := { offset := 10, drag := false },
                                     rating_info := { rating := 5, delta := -2 } } }]
        [{ end_point := 4, data := { offset_info := { offset := 20, drag := true },
                                     rating_info := { rating := 0, delta := 1 } } }] = some out ∧
      ∀ t v1 v2, (0 : Int) ≤ t →
        dualRatingValueAt 0
          [{ end_point := 4, data := { offset_info := { offset := 10, drag := false },
                                       rating_info := { rating := 5, delta := -2 } } }] t =
          some v1 →
        dualRatingValueAt 0
          [{ end_point := 4, data := { offset_info := { offset := 20, drag := true },
                                       rating_info := { rating := 0, delta := 1 } } }] t =
          some v2 →
        dualFullRatingValueAt out t = some (max v1 v2) ∧
        ∃ o, dualFullOffsetValueAt out t = some o ∧
          (v2 < v1 → dualOffsetValueAt 0
            [{ end_point := 4, data := { offset_info := { offset := 10, drag := false },
                                         rating_info := { rating := 5, delta := -2 } } }] t =
            some o) ∧
          (v1 < v2 → dualOffsetValueAt 0
            [{ end_point := 4, data := { offset_info := { offset := 20, drag := true },
                                         rating_info := { rating := 0, delta := 1 } } }] t =
            some o) ∧
          (dualOffsetValueAt 0
            [{ end_point := 4, data := { offset_info := { offset := 10, drag := false },
                                         rating_info := { rating := 5, delta := -2 } } }] t =
            some o ∨
           dualOffsetValueAt 0
            [{ end_point := 4, data := { offset_info := { offset := 20, drag := true },
                                         rating_info := { rating := 0, delta := 1 } } }] t =
            some o) :=
  C3_combined_maximum_amended 0 _ _ (by decide) (by decide) (by decide) (by decide) (by decide)

theorem dualFullRating_none_of_lt (l : List DualFullSegment) :
    ∀ p u : Int, WFFullFrom p l → u < p → dualFullRatingValueAt l u = none := by
  induction l with
  | nil =>
    intro p u _ _
    rfl
  | cons s rest ih =>
    intro p u h hu
    obtain ⟨h1, h2, h3⟩ := h
    rw [dualFullRatingValueAt_cons, if_neg (by omega)]
    exact ih s.span.endp u h3 (by omega)

theorem dualFullOffset_none_of_lt (l : List DualFullSegment) :
    ∀ p u : Int, WFFullFrom p l → u < p → dualFullOffsetValueAt l u = none := by
  induction l with
  | nil =>
    intro p u _ _
    rfl
  | cons s rest ih =>
    intro p u h hu
    obtain ⟨h1, h2, h3⟩ := h
    rw [dualFullOffsetValueAt_cons, if_neg (by omega)]
    exact ih s.span.endp u h3 (by omega)

theorem l2rConst_rating (b tp : Int) (sp : PointSpan) (x : Int) :
    (l2rConstantSegment b tp sp).data.rating_info.get_at x = b := by
  unfold l2rConstantSegment RatingInfo.constant RatingInfo.get_at Rating.add_mul
  ring

theorem l2rConst_offset (b tp : Int) (sp : PointSpan) (x : Int) :
    (l2rConstantSegment b tp sp).data.offset_info.advanced_offset x = tp := by
  simp [l2rConstantSegment, OffsetInfo.constant, OffsetInfo.advanced_offset]

theorem advanced_offset_end (oi : OffsetInfo) (l : Int) :
    oi.advanced_offset (l - 1) = oi.end_offset l := by
  by_cases h : oi.drag
  · simp [OffsetInfo.advanced_offset, OffsetInfo.end_offset, h]
  · simp [OffsetInfo.advanced_offset, OffsetInfo.end_offset, h]

theorem ratingConstant_get_at (b x : Int) : (RatingInfo.constant b).get_at x = b := by
  simp [RatingInfo.constant, RatingInfo.get_at, Rating.add_mul]

theorem offsetConstant_advanced_offset (tp x : Int) :
    (OffsetInfo.constant tp).advanced_offset x = tp := by
  simp [OffsetInfo.constant, OffsetInfo.advanced_offset]

theorem leftToRightMaximumGo_spec (segs : List DualFullSegment) :
    ∀ (p best tp : Int), WFFullFrom p segs →
    ∃ out, leftToRightMaximumGo best tp segs = some out ∧
      ∀ t v, dualFullRatingValueAt segs t = some v →
        ∃ r o, dualFullRatingValueAt out t = some r ∧
          dualFullOffsetValueAt out t = some o ∧
          (r = best ∧ o = tp ∨
           ∃ u, p ≤ u ∧ u ≤ t ∧ dualFullRatingValueAt segs u = some r ∧
             dualFullOffsetValueAt segs u = some o) ∧
          best ≤ r ∧
          ∀ u w, u ≤ t → dualFullRatingValueAt segs u = some w → w ≤ r := by
  induction segs with
  | nil =>
    intro p best tp _
    refine ⟨[], rfl, ?_⟩
    intro t v hv
    simp [dualFullRatingValueAt] at hv
  | cons segment rest ih =>
    intro p best tp hwf
    obtain ⟨hstart, hplt, hwf'⟩ := hwf
    subst hstart
    have hwfAll : WFFullFrom segment.span.start (segment :: rest) := ⟨rfl, hplt, hwf'⟩
    have hsr : segment.start_rating = segment.data.rating_info.rating := rfl
    have hlen : segment.span.len = segment.span.endp - segment.span.start := rfl
    have her : segment.end_rating = segment.data.rating_info.rating +
        segment.data.rating_info.delta * (segment.span.endp - segment.span.start - 1) := by
      unfold DualFullSegment.end_rating Rating.add_mul PointSpan.len
      ring
    have hL0 : 0 ≤ segment.span.endp - segment.span.start - 1 := by omega
    by_cases hc1 : segment.start_rating ≤ best ∧ segment.end_rating ≤ best
    · -- case 1: whole segment at or below the running best
      obtain ⟨out', hout', hval'⟩ := ih segment.span.endp best tp hwf'
      have hseg_le : ∀ u, segment.span.start ≤ u → u < segment.span.endp →
          segment.data.rating_info.get_at (u - segment.span.start) ≤ best := by
        intro u hu1 hu2
        unfold RatingInfo.get_at Rating.add_mul
        have key := lin_nonneg_between (a := best - segment.data.rating_info.rating)
          (d := -segment.data.rating_info.delta)
          (L := segment.span.endp - segment.span.start - 1)
          (u := u - segment.span.start) (by omega) (by omega) (by linarith [hc1.1, hsr])
          (by linarith [hc1.2, her])
        linarith
      refine ⟨l2rConstantSegment best tp segment.span :: out', ?_, ?_⟩
      · rw [leftToRightMaximumGo]
        simp only []
        rw [if_pos hc1, hout']
        rfl
      · intro t v hv
        rcases lt_or_le t segment.span.start with htp | htp
        · rw [dualFullRating_none_of_lt (segment :: rest) segment.span.start t hwfAll htp] at hv
          exact absurd hv (by simp)
        · by_cases hin : t < segment.span.endp
          · refine ⟨best, tp, ?_, ?_, Or.inl ⟨rfl, rfl⟩, le_refl best, ?_⟩
            · rw [dualFullRatingValueAt_cons]
              simp only [l2rConstantSegment]
              rw [if_pos ⟨htp, hin⟩, ratingConstant_get_at]
            · rw [dualFullOffsetValueAt_cons]
              simp only [l2rConstantSegment]
              rw [if_pos ⟨htp, hin⟩, offsetConstant_advanced_offset]
            · intro u w hut hvw
              rcases lt_or_le u segment.span.start with hup | hup
              · rw [dualFullRating_none_of_lt (segment :: rest) segment.span.start u
                  hwfAll hup] at hvw
                exact absurd hvw (by simp)
              · have huin : u < segment.span.endp := by omega
                rw [dualFullRatingValueAt_cons, if_pos ⟨hup, huin⟩] at hvw
                have hw := Option.some.inj hvw
                rw [← hw]
                exact hseg_le u hup huin
          · have hv' : dualFullRatingValueAt rest t = some v := by
              rw [dualFullRatingValueAt_cons, if_neg (by omega)] at hv
              exact hv
            obtain ⟨r, o, hr, ho, hatt, hbr, hub⟩ := hval' t v hv'
            refine ⟨r, o, ?_, ?_, ?_, hbr, ?_⟩
            · rw [dualFullRatingValueAt_cons]
              simp only [l2rConstantSegment]
              rw [if_neg (show ¬(segment.span.start ≤ t ∧ t < segment.span.endp) by omega)]
              exact hr
            · rw [dualFullOffsetValueAt_cons]
              simp only [l2rConstantSegment]
              rw [if_neg (show ¬(segment.span.start ≤ t ∧ t < segment.span.endp) by omega)]
              exact ho
            · rcases hatt with ⟨hre, hoe⟩ | ⟨u, hu1, hu2, hur, huo⟩
              · exact Or.inl ⟨hre, hoe⟩
              · refine Or.inr ⟨u, by omega, hu2, ?_, ?_⟩
                · rw [dualFullRatingValueAt_cons, if_neg (by omega)]
                  exact hur
                · rw [dualFullOffsetValueAt_cons, if_neg (by omega)]
                  exact huo
            · intro u w hut hvw
              rcases lt_or_le u segment.span.start with hup | hup
              · rw [dualFullRating_none_of_lt (segment :: rest) segment.span.start u
                  hwfAll hup] at hvw
                exact absurd hvw (by simp)
              · by_cases huin : u < segment.span.endp
                · rw [dualFullRatingValueAt_cons, if_pos ⟨hup, huin⟩] at hvw
                  have hw := Option.some.inj hvw
                  rw [← hw]
                  exact le_trans (hseg_le u hup huin) hbr
                · rw [dualFullRatingValueAt_cons, if_neg (by omega)] at hvw
                  exact hub u w hut hvw
    · by_cases hc2 : segment.start_rating ≥ best
      · by_cases hc2a : segment.start_rating ≥ segment.end_rating
        · -- case 2a: non-increasing segment starting at or above the best
          obtain ⟨out', hout', hval'⟩ := ih segment.span.endp segment.start_rating
            segment.data.offset_info.offset hwf'
          have hseg_le : ∀ u, segment.span.start ≤ u → u < segment.span.endp →
              segment.data.rating_info.get_at (u - segment.span.start) ≤
                segment.start_rating := by
            intro u hu1 hu2
            unfold RatingInfo.get_at Rating.add_mul
            have key := lin_nonneg_between
              (a := segment.start_rating - segment.data.rating_info.rating)
              (d := -segment.data.rating_info.delta)
              (L := segment.span.endp - segment.span.start - 1)
              (u := u - segment.span.start) (by omega) (by omega) (by linarith [hsr])
              (by linarith [hc2a, her])
            linarith
          have hat_start_r : dualFullRatingValueAt (segment :: rest) segment.span.start =
              some segment.start_rating := by
            rw [dualFullRatingValueAt_cons, if_pos ⟨le_refl _, hplt⟩]
            congr 1
            unfold RatingInfo.get_at Rating.add_mul DualFullSegment.start_rating
            ring
          have hat_start_o : dualFullOffsetValueAt (segment :: rest) segment.span.start =
              some segment.data.offset_info.offset := by
            rw [dualFullOffsetValueAt_cons, if_pos ⟨le_refl _, hplt⟩]
            unfold OffsetInfo.advanced_offset
            by_cases hd : segment.data.offset_info.drag
            · rw [if_pos hd]
              congr 1
              ring
            · rw [if_neg hd]
          refine ⟨l2rConstantSegment segment.start_rating segment.data.offset_info.offset
            segment.span :: out', ?_, ?_⟩
          · rw [leftToRightMaximumGo]
            simp only []
            rw [if_neg hc1, if_pos hc2, if_pos hc2a, hout']
            rfl
          · intro t v hv
            rcases lt_or_le t segment.span.start with htp | htp
            · rw [dualFullRating_none_of_lt (segment :: rest) segment.span.start t
                hwfAll htp] at hv
              exact absurd hv (by simp)
            · by_cases hin : t < segment.span.endp
              · refine ⟨segment.start_rating, segment.data.offset_info.offset, ?_, ?_,
                  Or.inr ⟨segment.span.start, le_refl _, by omega, hat_start_r, hat_start_o⟩,
                  hc2, ?_⟩
                · rw [dualFullRatingValueAt_cons]
                  simp only [l2rConstantSegment]
                  rw [if_pos ⟨htp, hin⟩, ratingConstant_get_at]
                · rw [dualFullOffsetValueAt_cons]
                  simp only [l2rConstantSegment]
                  rw [if_pos ⟨htp, hin⟩, offsetConstant_advanced_offset]
                · intro u w hut hvw
                  rcases lt_or_le u segment.span.start with hup | hup
                  · rw [dualFullRating_none_of_lt (segment :: rest) segment.span.start u
                      hwfAll hup] at hvw
                    exact absurd hvw (by simp)
                  · have huin : u < segment.span.endp := by omega
                    rw [dualFullRatingValueAt_cons, if_pos ⟨hup, huin⟩] at hvw
                    have hw := Option.some.inj hvw
                    rw [← hw]
                    exact hseg_le u hup huin
              · have hv' : dualFullRatingValueAt rest t = some v := by
                  rw [dualFullRatingValueAt_cons, if_neg (by omega)] at hv
                  exact hv
                obtain ⟨r, o, hr, ho, hatt, hbr, hub⟩ := hval' t v hv'
                refine ⟨r, o, ?_, ?_, ?_, by omega, ?_⟩
                · rw [dualFullRatingValueAt_cons]
                  simp only [l2rConstantSegment]
                  rw [if_neg (show ¬(segment.span.start ≤ t ∧ t < segment.span.endp) by omega)]
                  exact hr
                · rw [dualFullOffsetValueAt_cons]
                  simp only [l2rConstantSegment]
                  rw [if_neg (show ¬(segment.span.start ≤ t ∧ t < segment.span.endp) by omega)]
                  exact ho
                · rcases hatt with ⟨hre, hoe⟩ | ⟨u, hu1, hu2, hur, huo⟩
                  · refine Or.inr ⟨segment.span.start, le_refl _, by omega, ?_, ?_⟩
                    · rw [hre]
                      exact hat_start_r
                    · rw [hoe]
                      exact hat_start_o
                  · refine Or.inr ⟨u, by omega, hu2, ?_, ?_⟩
                    · rw [dualFullRatingValueAt_cons, if_neg (by omega)]
                      exact hur
                    · rw [dualFullOffsetValueAt_cons, if_neg (by omega)]
                      exact huo
                · intro u w hut hvw
                  rcases lt_or_le u segment.span.start with hup | hup
                  · rw [dualFullRating_none_of_lt (segment :: rest) segment.span.start u
                      hwfAll hup] at hvw
                    exact absurd hvw (by simp)
                  · by_cases huin : u < segment.span.endp
                    · rw [dualFullRatingValueAt_cons, if_pos ⟨hup, huin⟩] at hvw
                      have hw := Option.some.inj hvw
                      rw [← hw]
                      exact le_trans (hseg_le u hup huin) hbr
                    · rw [dualFullRatingValueAt_cons, if_neg (by omega)] at hvw
                      exact hub u w hut hvw
        · -- case 2b: increasing segment starting at or above the best
          push_neg at hc2a
          have hdpos : 0 < segment.data.rating_info.delta := by
            by_contra hcon
            push_neg at hcon
            have h0 : segment.data.rating_info.delta *
                (segment.span.endp - segment.span.start - 1) ≤ 0 :=
              mul_nonpos_iff.mpr (Or.inr ⟨hcon, hL0⟩)
            linarith [hc2a, hsr, her]
          obtain ⟨out', hout', hval'⟩ := ih segment.span.endp segment.end_rating
            (segment.data.offset_info.end_offset segment.span.len) hwf'
          have hseg_le_end : ∀ u, segment.span.start ≤ u → u < segment.span.endp →
              segment.data.rating_info.get_at (u - segment.span.start) ≤
                segment.end_rating := by
            intro u hu1 hu2
            unfold RatingInfo.get_at Rating.add_mul
            have hus : u - segment.span.start ≤
                segment.span.endp - segment.span.start - 1 := by omega
            have hm := mul_le_mul_of_nonneg_left hus (le_of_lt hdpos)
            linarith [her]
          have hat_end_r : dualFullRatingValueAt (segment :: rest) (segment.span.endp - 1) =
              some segment.end_rating := by
            rw [dualFullRatingValueAt_cons, if_pos ⟨by omega, by omega⟩]
            congr 1
            unfold RatingInfo.get_at Rating.add_mul
            linarith [her]
          have hat_end_o : dualFullOffsetValueAt (segment :: rest) (segment.span.endp - 1) =
              some (segment.data.offset_info.end_offset segment.span.len) := by
            rw [dualFullOffsetValueAt_cons, if_pos ⟨by omega, by omega⟩]
            rw [show segment.span.endp - 1 - segment.span.start =
              segment.span.len - 1 by omega]
            rw [advanced_offset_end]
          refine ⟨segment :: out', ?_, ?_⟩
          · rw [leftToRightMaximumGo]
            simp only []
            rw [if_neg hc1, if_pos hc2, if_neg (show ¬segment.start_rating ≥
              segment.end_rating by omega), hout']
            rfl
          · intro t v hv
            rcases lt_or_le t segment.span.start with htp | htp
            · rw [dualFullRating_none_of_lt (segment :: rest) segment.span.start t
                hwfAll htp] at hv
              exact absurd hv (by simp)
            · by_cases hin : t < segment.span.endp
              · refine ⟨segment.data.rating_info.get_at (t - segment.span.start),
                  segment.data.offset_info.advanced_offset (t - segment.span.start), ?_, ?_,
                  Or.inr ⟨t, htp, le_refl _, ?_, ?_⟩, ?_, ?_⟩
                · rw [dualFullRatingValueAt_cons, if_pos ⟨htp, hin⟩]
                · rw [dualFullOffsetValueAt_cons, if_pos ⟨htp, hin⟩]
                · rw [dualFullRatingValueAt_cons, if_pos ⟨htp, hin⟩]
                · rw [dualFullOffsetValueAt_cons, if_pos ⟨htp, hin⟩]
                · unfold RatingInfo.get_at Rating.add_mul
                  have hm := mul_le_mul_of_nonneg_left
                    (show (0 : Int) ≤ t - segment.span.start by omega) (le_of_lt hdpos)
                  linarith [hsr, hc2]
                · intro u w hut hvw
                  rcases lt_or_le u segment.span.start with hup | hup
                  · rw [dualFullRating_none_of_lt (segment :: rest) segment.span.start u
                      hwfAll hup] at hvw
                    exact absurd hvw (by simp)
                  · have huin : u < segment.span.endp := by omega
                    rw [dualFullRatingValueAt_cons, if_pos ⟨hup, huin⟩] at hvw
                    have hw := Option.some.inj hvw
                    rw [← hw]
                    unfold RatingInfo.get_at Rating.add_mul
                    have hm := mul_le_mul_of_nonneg_left
                      (show u - segment.span.start ≤ t - segment.span.start by omega)
                      (le_of_lt hdpos)
                    linarith
              · have hv' : dualFullRatingValueAt rest t = some v := by
                  rw [dualFullRatingValueAt_cons, if_neg (by omega)] at hv
                  exact hv
                obtain ⟨r, o, hr, ho, hatt, hbr, hub⟩ := hval' t v hv'
                refine ⟨r, o, ?_, ?_, ?_, by omega, ?_⟩
                · rw [dualFullRatingValueAt_cons,
                    if_neg (show ¬(segment.span.start ≤ t ∧ t < segment.span.endp) by omega)]
                  exact hr
                · rw [dualFullOffsetValueAt_cons,
                    if_neg (show ¬(segment.span.start ≤ t ∧ t < segment.span.endp) by omega)]
                  exact ho
                · rcases hatt with ⟨hre, hoe⟩ | ⟨u, hu1, hu2, hur, huo⟩
                  · refine Or.inr ⟨segment.span.endp - 1, by omega, by omega, ?_, ?_⟩
                    · rw [hre]
                      exact hat_end_r
                    · rw [hoe]
                      exact hat_end_o
                  · refine Or.inr ⟨u, by omega, hu2, ?_, ?_⟩
                    · rw [dualFullRatingValueAt_cons, if_neg (by omega)]
                      exact hur
                    · rw [dualFullOffsetValueAt_cons, if_neg (by omega)]
                      exact huo
                · intro u w hut hvw
                  rcases lt_or_le u segment.span.start with hup | hup
                  · rw [dualFullRating_none_of_lt (segment :: rest) segment.span.start u
                      hwfAll hup] at hvw
                    exact absurd hvw (by simp)
                  · by_cases huin : u < segment.span.endp
                    · rw [dualFullRatingValueAt_cons, if_pos ⟨hup, huin⟩] at hvw
                      have hw := Option.some.inj hvw
                      rw [← hw]
                      exact le_trans (hseg_le_end u hup huin) hbr
                    · rw [dualFullRatingValueAt_cons, if_neg (by omega)] at hvw
                      exact hub u w hut hvw
      · -- case 3: segment crosses the running best from below
        push_neg at hc2
        have hgt : best < segment.end_rating := by
          rcases not_and_or.mp hc1 with h | h
          · exact absurd (le_of_lt hc2) h
          · omega
        have hdpos : 0 < segment.data.rating_info.delta := by
          by_contra hcon
          push_neg at hcon
          have h0 : segment.data.rating_info.delta *
              (segment.span.endp - segment.span.start - 1) ≤ 0 :=
            mul_nonpos_iff.mpr (Or.inr ⟨hcon, hL0⟩)
          linarith [hgt, hc2, hsr, her]
        have hbd1 : segment.data.rating_info.delta *
            RatingDelta.div_by_delta_to_i64 (best - segment.start_rating)
              segment.data.rating_info.delta ≤ best - segment.start_rating :=
          (fdiv_bounds_pos hdpos).1
        have hbd2 : best - segment.start_rating < segment.data.rating_info.delta *
            (RatingDelta.div_by_delta_to_i64 (best - segment.start_rating)
              segment.data.rating_info.delta + 1) :=
          (fdiv_bounds_pos hdpos).2
        have hF0 : 0 ≤ RatingDelta.div_by_delta_to_i64 (best - segment.start_rating)
            segment.data.rating_info.delta :=
          Int.fdiv_nonneg (by omega) (by omega)
        have hFlt : RatingDelta.div_by_delta_to_i64 (best - segment.start_rating)
            segment.data.rating_info.delta <
            segment.span.endp - segment.span.start - 1 := by
          have hx : segment.data.rating_info.delta *
              RatingDelta.div_by_delta_to_i64 (best - segment.start_rating)
                segment.data.rating_info.delta <
              segment.data.rating_info.delta *
                (segment.span.endp - segment.span.start - 1) := by
            linarith [her, hsr, hgt]
          exact lt_of_mul_lt_mul_left hx (le_of_lt hdpos)
        have hreg1 : ∀ u, segment.span.start ≤ u →
            u < segment.span.start + (RatingDelta.div_by_delta_to_i64
              (best - segment.start_rating) segment.data.rating_info.delta + 1) →
            segment.data.rating_info.get_at (u - segment.span.start) ≤ best := by
          intro u hu1 hu2
          unfold RatingInfo.get_at Rating.add_mul
          have hus : u - segment.span.start ≤ RatingDelta.div_by_delta_to_i64
              (best - segment.start_rating) segment.data.rating_info.delta := by omega
          have hm := mul_le_mul_of_nonneg_left hus (le_of_lt hdpos)
          linarith [hbd1, hsr]
        have hreg2 : ∀ u, segment.span.start + (RatingDelta.div_by_delta_to_i64
              (best - segment.start_rating) segment.data.rating_info.delta + 1) ≤ u →
            best < segment.data.rating_info.get_at (u - segment.span.start) := by
          intro u hu
          unfold RatingInfo.get_at Rating.add_mul
          have hus : RatingDelta.div_by_delta_to_i64 (best - segment.start_rating)
              segment.data.rating_info.delta + 1 ≤ u - segment.span.start := by omega
          have hm := mul_le_mul_of_nonneg_left hus (le_of_lt hdpos)
          linarith [hbd2, hsr]
        have hseg_le_end : ∀ u, segment.span.start ≤ u → u < segment.span.endp →
            segment.data.rating_info.get_at (u - segment.span.start) ≤
              segment.end_rating := by
          intro u hu1 hu2
          unfold RatingInfo.get_at Rating.add_mul
          have hus : u - segment.span.start ≤
              segment.span.endp - segment.span.start - 1 := by omega
          have hm := mul_le_mul_of_nonneg_left hus (le_of_lt hdpos)
          linarith [her]
        have hat_end_r : dualFullRatingValueAt (segment :: rest) (segment.span.endp - 1) =
            some segment.end_rating := by
          rw [dualFullRatingValueAt_cons, if_pos ⟨by omega, by omega⟩]
          congr 1
          unfold RatingInfo.get_at Rating.add_mul
          linarith [her]
        have hat_end_o : dualFullOffsetValueAt (segment :: rest) (segment.span.endp - 1) =
            some (segment.data.offset_info.end_offset segment.span.len) := by
          rw [dualFullOffsetValueAt_cons, if_pos ⟨by omega, by omega⟩]
          rw [show segment.span.endp - 1 - segment.span.start =
            segment.span.len - 1 by omega]
          rw [advanced_offset_end]
        obtain ⟨out', hout', hval'⟩ := ih segment.span.endp segment.end_rating
          (segment.data.offset_info.end_offset segment.span.len) hwf'
        refine ⟨l2rConstantSegment best tp
            ⟨segment.span.start,
              segment.span.start + (RatingDelta.div_by_delta_to_i64
                (best - segment.start_rating) segment.data.rating_info.delta + 1)⟩ ::
          ⟨⟨segment.span.start + (RatingDelta.div_by_delta_to_i64
                (best - segment.start_rating) segment.data.rating_info.delta + 1),
              segment.span.endp⟩,
            segment.data.advanced (RatingDelta.div_by_delta_to_i64
              (best - segment.start_rating) segment.data.rating_info.delta + 1)⟩ ::
          out', ?_, ?_⟩
        · rw [leftToRightMaximumGo]
          simp only []
          rw [if_neg hc1, if_neg (show ¬segment.start_rating ≥ best by omega),
            if_pos (show 0 < RatingDelta.div_by_delta_to_i64 (best - segment.start_rating)
              segment.data.rating_info.delta + 1 ∧ RatingDelta.div_by_delta_to_i64
              (best - segment.start_rating) segment.data.rating_info.delta + 1 <
              segment.span.len by constructor <;> omega), hout']
          rfl
        · intro t v hv
          rcases lt_or_le t segment.span.start with htp | htp
          · rw [dualFullRating_none_of_lt (segment :: rest) segment.span.start t
              hwfAll htp] at hv
            exact absurd hv (by simp)
          · by_cases hin : t < segment.span.endp
            · by_cases hin1 : t < segment.span.start + (RatingDelta.div_by_delta_to_i64
                  (best - segment.start_rating) segment.data.rating_info.delta + 1)
              · -- first region: constant best segment
                refine ⟨best, tp, ?_, ?_, Or.inl ⟨rfl, rfl⟩, le_refl best, ?_⟩
                · rw [dualFullRatingValueAt_cons]
                  simp only [l2rConstantSegment]
                  rw [if_pos ⟨htp, hin1⟩, ratingConstant_get_at]
                · rw [dualFullOffsetValueAt_cons]
                  simp only [l2rConstantSegment]
                  rw [if_pos ⟨htp, hin1⟩, offsetConstant_advanced_offset]
                · intro u w hut hvw
                  rcases lt_or_le u segment.span.start with hup | hup
                  · rw [dualFullRating_none_of_lt (segment :: rest) segment.span.start u
                      hwfAll hup] at hvw
                    exact absurd hvw (by simp)
                  · have huin : u < segment.span.endp := by omega
                    rw [dualFullRatingValueAt_cons, if_pos ⟨hup, huin⟩] at hvw
                    have hw := Option.some.inj hvw
                    rw [← hw]
                    exact hreg1 u hup (by omega)
              · -- second region: the advanced tail of the segment
                push_neg at hin1
                refine ⟨segment.data.rating_info.get_at (t - segment.span.start),
                  segment.data.offset_info.advanced_offset (t - segment.span.start), ?_, ?_,
                  Or.inr ⟨t, htp, le_refl _, ?_, ?_⟩, le_of_lt (hreg2 t hin1), ?_⟩
                · rw [dualFullRatingValueAt_cons]
                  simp only [l2rConstantSegment]
                  rw [if_neg (show ¬(segment.span.start ≤ t ∧ t < segment.span.start +
                      (RatingDelta.div_by_delta_to_i64 (best - segment.start_rating)
                        segment.data.rating_info.delta + 1)) by omega),
                    dualFullRatingValueAt_cons, if_pos ⟨hin1, hin⟩]
                  simp only [DualInfo.advanced]
                  rw [get_at_advanced]
                  rw [show RatingDelta.div_by_delta_to_i64 (best - segment.start_rating)
                      segment.data.rating_info.delta + 1 +
                      (t - (segment.span.start + (RatingDelta.div_by_delta_to_i64
                        (best - segment.start_rating) segment.data.rating_info.delta + 1))) =
                      t - segment.span.start from by ring]
                · rw [dualFullOffsetValueAt_cons]
                  simp only [l2rConstantSegment]
                  rw [if_neg (show ¬(segment.span.start ≤ t ∧ t < segment.span.start +
                      (RatingDelta.div_by_delta_to_i64 (best - segment.start_rating)
                        segment.data.rating_info.delta + 1)) by omega),
                    dualFullOffsetValueAt_cons, if_pos ⟨hin1, hin⟩]
                  simp only [DualInfo.advanced]
                  rw [advanced_offset_advanced]
                  rw [show RatingDelta.div_by_delta_to_i64 (best - segment.start_rating)
                      segment.data.rating_info.delta + 1 +
                      (t - (segment.span.start + (RatingDelta.div_by_delta_to_i64
                        (best - segment.start_rating) segment.data.rating_info.delta + 1))) =
                      t - segment.span.start from by ring]
                · rw [dualFullRatingValueAt_cons, if_pos ⟨htp, hin⟩]
                · rw [dualFullOffsetValueAt_cons, if_pos ⟨htp, hin⟩]
                · intro u w hut hvw
                  rcases lt_or_le u segment.span.start with hup | hup
                  · rw [dualFullRating_none_of_lt (segment :: rest) segment.span.start u
                      hwfAll hup] at hvw
                    exact absurd hvw (by simp)
                  · have huin : u < segment.span.endp := by omega
                    rw [dualFullRatingValueAt_cons, if_pos ⟨hup, huin⟩] at hvw
                    have hw := Option.some.inj hvw
                    rw [← hw]
                    unfold RatingInfo.get_at Rating.add_mul
                    have hm := mul_le_mul_of_nonneg_left
                      (show u - segment.span.start ≤ t - segment.span.start by omega)
                      (le_of_lt hdpos)
                    linarith
            · -- past the segment: defer to the recursion seeded with the end rating
              have hv' : dualFullRatingValueAt rest t = some v := by
                rw [dualFullRatingValueAt_cons, if_neg (by omega)] at hv
                exact hv
              obtain ⟨r, o, hr, ho, hatt, hbr, hub⟩ := hval' t v hv'
              refine ⟨r, o, ?_, ?_, ?_, by omega, ?_⟩
              · rw [dualFullRatingValueAt_cons]
                simp only [l2rConstantSegment]
                rw [if_neg (show ¬(segment.span.start ≤ t ∧ t < segment.span.start +
                    (RatingDelta.div_by_delta_to_i64 (best - segment.start_rating)
                      segment.data.rating_info.delta + 1)) by omega),
                  dualFullRatingValueAt_cons,
                  if_neg (show ¬(segment.span.start + (RatingDelta.div_by_delta_to_i64
                    (best - segment.start_rating) segment.data.rating_info.delta + 1) ≤ t ∧
                    t < segment.span.endp) by omega)]
                exact hr
              · rw [dualFullOffsetValueAt_cons]
                simp only [l2rConstantSegment]
                rw [if_neg (show ¬(segment.span.start ≤ t ∧ t < segment.span.start +
                    (RatingDelta.div_by_delta_to_i64 (best - segment.start_rating)
                      segment.data.rating_info.delta + 1)) by omega),
                  dualFullOffsetValueAt_cons,
                  if_neg (show ¬(segment.span.start + (RatingDelta.div_by_delta_to_i64
                    (best - segment.start_rating) segment.data.rating_info.delta + 1) ≤ t ∧
                    t < segment.span.endp) by omega)]
                exact ho
              · rcases hatt with ⟨hre, hoe⟩ | ⟨u, hu1, hu2, hur, huo⟩
                · refine Or.inr ⟨segment.span.endp - 1, by omega, by omega, ?_, ?_⟩
                  · rw [hre]
                    exact hat_end_r
                  · rw [hoe]
                    exact hat_end_o
                · refine Or.inr ⟨u, by omega, hu2, ?_, ?_⟩
                  · rw [dualFullRatingValueAt_cons, if_neg (by omega)]
                    exact hur
                  · rw [dualFullOffsetValueAt_cons, if_neg (by omega)]
                    exact huo
              · intro u w hut hvw
                rcases lt_or_le u segment.span.start with hup | hup
                · rw [dualFullRating_none_of_lt (segment :: rest) segment.span.start u
                    hwfAll hup] at hvw
                  exact absurd hvw (by simp)
                · by_cases huin : u < segment.span.endp
                  · rw [dualFullRatingValueAt_cons, if_pos ⟨hup, huin⟩] at hvw
                    have hw := Option.some.inj hvw
                    rw [← hw]
                    exact le_trans (hseg_le_end u hup huin) hbr
                  · rw [dualFullRatingValueAt_cons, if_neg (by omega)] at hvw
                    exact hub u w hut hvw

/-- C2 (corrected): for a well-formed dual full-segment signal, the signal
produced by `left_to_right_maximum` is total on the span and its rating at
`t` is the maximum of the SEEDED running maximum: the seed is rating `0` at
timepoint `start`, so the output rating is `max(0, max of the input over
[start, t])`, not the plain running maximum; the carried offset is the
input's offset at a point realizing that maximum, or the seed timepoint
`start` when the seed `0` is the (not necessarily attained) maximum. -/
theorem C2_left_to_right_maximum_amended (start : Int) (segs : List DualFullSegment)
    (hwf : WFFullFrom start segs) :
    ∃ out, left_to_right_maximum start segs = some out ∧
      ∀ t v, dualFullRatingValueAt segs t = some v →
        ∃ r o, dualFullRatingValueAt out t = some r ∧
          dualFullOffsetValueAt out t = some o ∧
          (r = 0 ∧ o = start ∨
           ∃ u, start ≤ u ∧ u ≤ t ∧ dualFullRatingValueAt segs u = some r ∧
             dualFullOffsetValueAt segs u = some o) ∧
          0 ≤ r ∧
          ∀ u w, u ≤ t → dualFullRatingValueAt segs u = some w → w ≤ r :=
  leftToRightMaximumGo_spec segs start 0 start hwf

/-- C2 counterexample to the plain running-maximum sentence: a single
constant segment of rating `-1`.  The running maximum over `u ≤ 0` is `-1`,
but the produced signal has rating `0` at `t = 0` (the iterator's seeded
`current_best_rating = 0`), and its carried offset is the seeded timepoint
`0`, not the input's offset `7` at any argmax point. -/
theorem C2_seeded_running_max_counterexample :
    left_to_right_maximum 0
        [{ span := { start := 0, endp := 2 },
           data := { offset_info := { offset := 7, drag := false },
                     rating_info := { rating := -1, delta := 0 } } }] =
      some [{ span := { start := 0, endp := 2 },
              data := { offset_info := { offset := 0, drag := false },
                        rating_info := { rating := 0, delta := 0 } } }] ∧
    dualFullRatingValueAt
        [{ span := { start := 0, endp := 2 },
           data := { offset_info := { offset := 7, drag := false },
                     rating_info := { rating := -1, delta := 0 } } }] 0 = some (-1) ∧
    dualFullRatingValueAt
        [{ span := { start := 0, endp := 2 },
           data := { offset_info := { offset := 0, drag := false },
                     rating_info := { rating := 0, delta := 0 } } }] 0 = some 0 ∧
    dualFullOffsetValueAt
        [{ span := { start := 0, endp := 2 },
           data := { offset_info := { offset := 0, drag := false },
                     rating_info := { rating := 0, delta := 0 } } }] 0 = some 0 := by
  refine ⟨by decide, by decide, by decide, by decide⟩

/-- C2 witness: a concrete increasing segment crossing the seed rating. -/
theorem C2_left_to_right_maximum_amended_witness :
    ∃ out, left_to_right_maximum 0
        [{ span := { start := 0, endp := 3 },
           data := { offset_info := { offset := 50, drag := true },
                     rating_info := { rating := -2, delta := 3 } } }] = some out ∧
      ∀ t v, dualFullRatingValueAt
          [{ span := { start := 0, endp := 3 },
             data := { offset_info := { offset := 50, drag := true },
                       rating_info := { rating := -2, delta := 3 } } }] t = some v →
        ∃ r o, dualFullRatingValueAt out t = some r ∧
          dualFullOffsetValueAt out t = some o ∧
          (r = 0 ∧ o = 0 ∨
           ∃ u, (0 : Int) ≤ u ∧ u ≤ t ∧ dualFullRatingValueAt
              [{ span := { start := 0, endp := 3 },
                 data := { offset_info := { offset := 50, drag := true },
                           rating_info := { rating := -2, delta := 3 } } }] u = some r ∧
             dualFullOffsetValueAt
              [{ span := { start := 0, endp := 3 },
                 data := { offset_info := { offset := 50, drag := true },
                           rating_info := { rating := -2, delta := 3 } } }] u = some o) ∧
          0 ≤ r ∧
          ∀ u w, u ≤ t → dualFullRatingValueAt
              [{ span := { start := 0, endp := 3 },
                 data := { offset_info := { offset := 50, drag := true },
                           rating_info := { rating := -2, delta := 3 } } }] u = some w →
            w ≤ r :=
  C2_left_to_right_maximum_amended 0 _ (by decide)
